import Mathlib

/-!
# Personalized PageRank kernel (`quick_algo/pr.c`)

A shallow embedding of `compare_edges` and `pagerank` from
`src/plugins/knowledge/lib/quick_algo/pr.c`, and the properties of the
edge normalization, the personalization normalization and the iterative
solver that follow from the code.

Conventions of the embedding:
* `double` values are rationals (exact arithmetic); `fabs` is `|·|`.
* `long long` node ids are integers; loop counters, `num_edges` and
  `num_nodes` are naturals (they only take non-negative values);
  `int max_iter` is an integer.
* A C array is a list. A read outside the list yields the default value
  and a write outside the list is dropped; the properties below that
  depend on the contents of an array assume the lengths and id ranges
  under which every access is inside. A second, checked embedding of the
  same code (`pagerank_checked`) yields `none` at the first access outside
  an array; it is used to show that those lengths and ranges keep every
  access inside.
* `/` is the division of the rationals, for which `x / 0 = 0` where the
  code would produce an infinity or a NaN. A property of the values the
  code computes therefore holds of the code only where no divisor is zero:
  `pagerank_guarded` is the checked embedding with the division by
  `sum_weight` guarded, and yields `none` at a zero `sum_weight`.
* A counted `for` loop whose body leaves its counter alone is a left fold
  over the list of the counter's values; the other loops are recursive
  functions on the loop state.
-/

namespace QuickAlgo

/-! ## Data model (`quick_algo.h`) -/

/-- An entry of the edge array: `struct Edge` with `long long src, dst` and
`double weight`. -/
structure Edge where
  src : Int
  dst : Int
  weight : ℚ
deriving DecidableEq

instance : Inhabited Edge := ⟨⟨0, 0, 0⟩⟩

/-! ## `compare_edges` and the sort -/

/-- The conversion of a `long long` to the `int` a function returns:
the value is reduced modulo `2^32` into `[-2^31, 2^31)`. -/
def to_int (x : Int) : Int := (x + 2 ^ 31) % 2 ^ 32 - 2 ^ 31

/-- The comparison callback `compare_edges` (pr.c lines 13-22): when the
sources differ (their exclusive or is non-zero) the difference of the
sources is returned, otherwise the difference of the destinations; both are
`long long` differences returned through `int`. -/
def compare_edges (edge_a edge_b : Edge) : Int :=
  if Int.xor edge_a.src edge_b.src ≠ 0 then
    to_int (edge_a.src - edge_b.src)
  else
    to_int (edge_a.dst - edge_b.dst)

/-- The C library's `qsort (base, nmemb, size, compar)`: the first `nmemb`
entries are rearranged into an order in which `compar` never reports an
earlier entry greater than a later one; here by insertion. The entries from
`nmemb` on are left alone. -/
def qsort (base : List Edge) (nmemb : Nat) (compar : Edge → Edge → Int) : List Edge :=
  List.insertionSort (fun a b => compar a b ≤ 0) (base.take nmemb) ++ base.drop nmemb

/-! ## Edge normalization (pr.c lines 43-74) -/

/-- The innermost loop `for (i = i_start; i < i_end; i++)
edges[i].weight /= sum_weight`. For `sum_weight = 0` the quotient here is
`0`, where the code stores an infinity or a NaN; `divide_run_checked` with
`div_guarded` is the same loop stopping at a zero `sum_weight`. -/
def divide_run (edges : List Edge) (sum_weight : ℚ) (i_start i_end : Nat) : List Edge :=
  (List.range' i_start (i_end - i_start)).foldl
    (fun es i =>
      es.set i { es.getD i default with weight := (es.getD i default).weight / sum_weight })
    edges

/-- The variables the `i_end` loop reads and writes. -/
structure ScanState where
  i_start : Nat
  sum_weight : ℚ
  edges : List Edge

/-- One pass through the body of the `i_end` loop (lines 55-71). -/
def scan_step (num_edges : Nat) (now_src : Int) (st : ScanState) (i_end : Nat) : ScanState :=
  if i_end = num_edges ∨ (st.edges.getD i_end default).src ≠ now_src then
    { i_start := i_end
      sum_weight := st.sum_weight
      edges := divide_run st.edges st.sum_weight st.i_start i_end }
  else
    { st with sum_weight := st.sum_weight + (st.edges.getD i_end default).weight }

/-- The loop `for (i_end = i_start + 1; i_end <= num_edges; i_end++)`
(lines 53-72); `i_end` takes the values `i_start + 1, ..., num_edges`,
where `i_start` is the value at loop entry. -/
def scan_inner (num_edges : Nat) (now_src : Int) (st : ScanState) : ScanState :=
  (List.range' (st.i_start + 1) (num_edges - st.i_start)).foldl (scan_step num_edges now_src) st

/-- The loop `for (i_start = 0; i_start < num_edges; i_start++)` (lines
48-73), entered at `i_start`. The body moves `i_start` itself. -/
def scan_outer (num_edges : Nat) (i_start : Nat) (edges : List Edge) : List Edge :=
  if i_start < num_edges then
    let now_src := (edges.getD i_start default).src
    let sum_weight := (edges.getD i_start default).weight
    let st := scan_inner num_edges now_src ⟨i_start, sum_weight, edges⟩
    scan_outer num_edges (st.i_start + 1) st.edges
  else
    edges
termination_by num_edges - i_start
decreasing_by
  rename_i h
  have key : (scan_inner num_edges (edges.getD i_start default).src
      ⟨i_start, (edges.getD i_start default).weight, edges⟩).i_start = num_edges := by
    unfold scan_inner
    obtain ⟨k, hk⟩ : ∃ k, num_edges - i_start = k + 1 := ⟨num_edges - i_start - 1, by omega⟩
    simp only [hk, List.range'_concat, List.foldl_append, List.foldl_cons, List.foldl_nil]
    have hlast : i_start + 1 + 1 * k = num_edges := by omega
    rw [hlast]
    simp [scan_step]
  omega

/-- The edge weight normalization block of `pagerank` (lines 43-74). -/
def normalize_edges (edges : List Edge) (num_edges : Nat) : List Edge :=
  scan_outer num_edges 0 edges

/-- The edge array of the test driver `main` (lines 197-203). -/
def main_edges : List Edge :=
  [⟨0, 1, 1/2⟩, ⟨1, 2, 3/10⟩, ⟨2, 0, 1/5⟩, ⟨1, 3, 2/5⟩, ⟨3, 4, 3/5⟩, ⟨4, 1, 7/10⟩]

/-! ## Personalization normalization (pr.c lines 76-106) -/

/-- The scan for `max_value` and `min_value` (lines 78-90): the pair
`(max_value, min_value)` starts at `(0, 1)` and every entry is compared
with both. -/
def max_min_scan (personalization : List ℚ) (num_nodes : Nat) : ℚ × ℚ :=
  (List.range num_nodes).foldl
    (fun (st : ℚ × ℚ) i =>
      let max_value := if personalization.getD i 0 > st.1 then personalization.getD i 0 else st.1
      let min_value := if personalization.getD i 0 < st.2 then personalization.getD i 0 else st.2
      (max_value, min_value))
    (0, 1)

/-- The personalization normalization block of `pagerank` (lines 76-106). -/
def normalize_personalization (personalization : List ℚ) (num_nodes : Nat) : List ℚ :=
  let max_value := (max_min_scan personalization num_nodes).1
  let min_value := (max_min_scan personalization num_nodes).2
  if max_value = min_value then
    (List.range num_nodes).foldl (fun p i => p.set i (1 / (num_nodes : ℚ))) personalization
  else
    (List.range num_nodes).foldl
      (fun p i => p.set i ((p.getD i 0 - min_value) / (max_value - min_value)))
      personalization

/-- The personalization vector of the test driver `main` (line 205). -/
def main_personalization : List ℚ := [1, 2, 3, 4, 5]

/-! ## The iterative solver (pr.c lines 108-191) -/

/-- The read `v[i]` of a `double` array at a `long long` index. -/
def rd (v : List ℚ) (i : Int) : ℚ :=
  if 0 ≤ i then v.getD i.toNat 0 else 0

/-- The update `v[i] += x` of a `double` array at a `long long` index. -/
def add_at (v : List ℚ) (i : Int) (x : ℚ) : List ℚ :=
  if 0 ≤ i then v.set i.toNat (v.getD i.toNat 0 + x) else v

/-- The score initialisation (lines 109-113): a zeroed array of
`num_nodes` entries receives `personalization[i]` at every `i`. -/
def init_score (personalization : List ℚ) (num_nodes : Nat) : List ℚ :=
  (List.range num_nodes).foldl (fun s i => s.set i (personalization.getD i 0))
    (List.replicate num_nodes 0)

/-- The restart term (lines 125-138): a zeroed array of `num_nodes` entries
receives `(1 - alpha) * personalization[i]` at every `i`. The iterations of
the parallel loop write distinct entries and read none, so their order is
immaterial. -/
def restart_term (personalization : List ℚ) (num_nodes : Nat) (alpha : ℚ) : List ℚ :=
  (List.range num_nodes).foldl (fun ns i => ns.set i ((1 - alpha) * personalization.getD i 0))
    (List.replicate num_nodes 0)

/-- A 256-bit register of four `double` lanes; `e0` is the lowest lane. -/
structure M256d where
  e0 : ℚ
  e1 : ℚ
  e2 : ℚ
  e3 : ℚ

/-- The intrinsic `_mm256_set1_pd`: all four lanes receive `a`. -/
def _mm256_set1_pd (a : ℚ) : M256d := ⟨a, a, a, a⟩

/-- The intrinsic `_mm256_set_pd (e3, e2, e1, e0)`: the first argument goes
to the highest lane, the last to the lowest. -/
def _mm256_set_pd (e3 e2 e1 e0 : ℚ) : M256d := ⟨e0, e1, e2, e3⟩

/-- The intrinsic `_mm256_mul_pd`: lane-wise product. -/
def _mm256_mul_pd (a b : M256d) : M256d :=
  ⟨a.e0 * b.e0, a.e1 * b.e1, a.e2 * b.e2, a.e3 * b.e3⟩

/-- The intrinsic `_mm256_store_pd`: the four lanes are stored lowest lane
first; the result is the content of `tmp_score`. -/
def _mm256_store_pd (a : M256d) : List ℚ := [a.e0, a.e1, a.e2, a.e3]

/-- The loop `for (i = 0; i < num_edges - 3; i += 4)` (lines 149-165),
entered at `i`; it returns the final `i` with `new_score`. The comparison
is one of signed values. -/
def simd_loop (edges : List Edge) (num_edges : Nat) (score : List ℚ) (alpha : ℚ)
    (i : Nat) (new_score : List ℚ) : Nat × List ℚ :=
  if (i : Int) < (num_edges : Int) - 3 then
    let alpha_val := _mm256_set1_pd alpha
    let src_score := _mm256_set_pd
      (rd score (edges.getD i default).src) (rd score (edges.getD (i + 1) default).src)
      (rd score (edges.getD (i + 2) default).src) (rd score (edges.getD (i + 3) default).src)
    let weights := _mm256_set_pd
      (edges.getD i default).weight (edges.getD (i + 1) default).weight
      (edges.getD (i + 2) default).weight (edges.getD (i + 3) default).weight
    let new_score_val := _mm256_mul_pd alpha_val src_score
    let new_score_val := _mm256_mul_pd new_score_val weights
    let tmp_score := _mm256_store_pd new_score_val
    let new_score := (List.range 4).foldl
      (fun ns j => add_at ns (edges.getD (i + j) default).dst (tmp_score.getD (3 - j) 0))
      new_score
    simd_loop edges num_edges score alpha (i + 4) new_score
  else
    (i, new_score)
termination_by num_edges - i
decreasing_by omega

/-- The remainder loop `for (; i < num_edges; i++)` (lines 167-170),
entered at `i`. -/
def remainder_loop (edges : List Edge) (num_edges : Nat) (score : List ℚ) (alpha : ℚ)
    (i : Nat) (new_score : List ℚ) : List ℚ :=
  (List.range' i (num_edges - i)).foldl
    (fun ns k =>
      add_at ns (edges.getD k default).dst
        (alpha * rd score (edges.getD k default).src * (edges.getD k default).weight))
    new_score

/-- The propagation block (lines 145-171): the four-at-a-time loop from
`i = 0`, then the remainder loop from where it stopped. -/
def propagate (edges : List Edge) (num_edges : Nat) (score : List ℚ) (alpha : ℚ)
    (new_score : List ℚ) : List ℚ :=
  let r := simd_loop edges num_edges score alpha 0 new_score
  remainder_loop edges num_edges score alpha r.1 r.2

/-- The loop the comment of lines 141-143 documents as the original
algorithm: `for (i = 0; i < num_edges; i++)
new_score[edges[i].dst] += alpha * score[edges[i].src] * edges[i].weight`. -/
def propagate_original (edges : List Edge) (num_edges : Nat) (score : List ℚ) (alpha : ℚ)
    (new_score : List ℚ) : List ℚ :=
  (List.range num_edges).foldl
    (fun ns i =>
      add_at ns (edges.getD i default).dst
        (alpha * rd score (edges.getD i default).src * (edges.getD i default).weight))
    new_score

/-- The computation of `new_score` in one iteration (lines 125-171). -/
def update_step (edges : List Edge) (num_edges : Nat) (personalization : List ℚ)
    (num_nodes : Nat) (alpha : ℚ) (score : List ℚ) : List ℚ :=
  propagate edges num_edges score alpha (restart_term personalization num_nodes alpha)

/-- The convergence measure (lines 174-178):
`diff = Σ_i fabs (new_score[i] - score[i])` over `i < num_nodes`. -/
def l1_diff (new_score score : List ℚ) (num_nodes : Nat) : ℚ :=
  (List.range num_nodes).foldl (fun diff i => diff + |new_score.getD i 0 - score.getD i 0|) 0

/-- The iteration loop `for (iter = 0; iter < max_iter; iter++)` (lines
123-186) with `remaining = max_iter - iter` passes left. The second
component counts the updates performed; it is not a variable of the code. -/
def iterate (edges : List Edge) (num_edges : Nat) (personalization : List ℚ) (num_nodes : Nat)
    (alpha tol : ℚ) : Nat → List ℚ → Nat → List ℚ × Nat
  | 0, score, updates => (score, updates)
  | remaining + 1, score, updates =>
    let new_score := update_step edges num_edges personalization num_nodes alpha score
    let diff := l1_diff new_score score num_nodes
    if diff < tol then
      (new_score, updates + 1)
    else
      iterate edges num_edges personalization num_nodes alpha tol remaining new_score (updates + 1)

/-- The body of `pagerank` (lines 37-191): the returned score vector and
the number of updates performed. -/
def pagerank_run (edges : List Edge) (num_edges : Nat) (personalization : List ℚ)
    (num_nodes : Nat) (alpha : ℚ) (max_iter : Int) (tol : ℚ) : List ℚ × Nat :=
  let edges := qsort edges num_edges compare_edges
  let edges := normalize_edges edges num_edges
  let personalization := normalize_personalization personalization num_nodes
  let score := init_score personalization num_nodes
  iterate edges num_edges personalization num_nodes alpha tol max_iter.toNat score 0

/-- The function `pagerank` (lines 27-192): the returned score vector. -/
def pagerank (edges : List Edge) (num_edges : Nat) (personalization : List ℚ)
    (num_nodes : Nat) (alpha : ℚ) (max_iter : Int) (tol : ℚ) : List ℚ :=
  (pagerank_run edges num_edges personalization num_nodes alpha max_iter tol).1

/-! ## The sequence of iterates -/

/-- The iterate `x_k`: `x_0` is the normalized personalization vector and
`x_(k+1)` is the `new_score` the update step computes from `x_k`, on the
edges and the personalization vector as `pagerank` has normalized them. -/
def score_seq (edges : List Edge) (num_edges : Nat) (personalization : List ℚ)
    (num_nodes : Nat) (alpha : ℚ) (k : Nat) : List ℚ :=
  (update_step (normalize_edges (qsort edges num_edges compare_edges) num_edges) num_edges
    (normalize_personalization personalization num_nodes) num_nodes alpha)^[k]
    (normalize_personalization personalization num_nodes)

/-- The difference `diff_k = Σ_i |x_k[i] - x_(k-1)[i]|` of the `k`-th
update, measured as the code measures it. -/
def diff_seq (edges : List Edge) (num_edges : Nat) (personalization : List ℚ)
    (num_nodes : Nat) (alpha : ℚ) (k : Nat) : ℚ :=
  l1_diff (score_seq edges num_edges personalization num_nodes alpha k)
    (score_seq edges num_edges personalization num_nodes alpha (k - 1)) num_nodes

/-- The total weight of the edges of `edges` that leave `s`. -/
def out_weight (edges : List Edge) (s : Int) : ℚ :=
  ((edges.filter (fun e => decide (e.src = s))).map Edge.weight).sum

/-! ## Largest and smallest entry -/

/-- The largest entry of a vector (`0` for the empty vector). -/
def largest : List ℚ → ℚ
  | [] => 0
  | [x] => x
  | x :: y :: l => max x (largest (y :: l))

/-- The smallest entry of a vector (`0` for the empty vector). -/
def smallest : List ℚ → ℚ
  | [] => 0
  | [x] => x
  | x :: y :: l => min x (smallest (y :: l))

/-- The edge array of the test driver in the order of `(src, dst)`. -/
def main_edges_sorted : List Edge :=
  [⟨0, 1, 1/2⟩, ⟨1, 2, 3/10⟩, ⟨1, 3, 2/5⟩, ⟨2, 0, 1/5⟩, ⟨3, 4, 3/5⟩, ⟨4, 1, 7/10⟩]

/-! ## The checked embedding

The same code with every array access checked: a read or a write outside
the array yields `none`, and so does a division the embedding is told to
guard. The division of a weight by `sum_weight` is a parameter: `div_plain`
never fails (a floating-point division does not trap), `div_guarded` fails
on a zero divisor. -/

/-- The division that never fails. -/
def div_plain (a b : ℚ) : Option ℚ := some (a / b)

/-- The division for which a zero divisor is an error. -/
def div_guarded (a b : ℚ) : Option ℚ := if b = 0 then none else some (a / b)

/-- The innermost loop of the scan, `edges[i].weight /= sum_weight` for
`i_start ≤ i < i_end`, with `edges[i]` checked. -/
def divide_run_checked (dv : ℚ → ℚ → Option ℚ) (edges : List Edge) (sum_weight : ℚ)
    (i_start i_end : Nat) : Option (List Edge) :=
  (List.range' i_start (i_end - i_start)).foldlM
    (fun es i =>
      match es[i]? with
      | none => none
      | some e =>
        match dv e.weight sum_weight with
        | none => none
        | some w => some (es.set i { e with weight := w }))
    edges

/-- One pass through the body of the `i_end` loop (lines 55-71): the test
`i_end == num_edges` comes first and `edges[i_end]` is read only when it
fails. -/
def scan_step_checked (dv : ℚ → ℚ → Option ℚ) (num_edges : Nat) (now_src : Int)
    (st : ScanState) (i_end : Nat) : Option ScanState :=
  if i_end = num_edges then
    match divide_run_checked dv st.edges st.sum_weight st.i_start i_end with
    | none => none
    | some es => some { i_start := i_end, sum_weight := st.sum_weight, edges := es }
  else
    match st.edges[i_end]? with
    | none => none
    | some e =>
      if e.src ≠ now_src then
        match divide_run_checked dv st.edges st.sum_weight st.i_start i_end with
        | none => none
        | some es => some { i_start := i_end, sum_weight := st.sum_weight, edges := es }
      else
        some { st with sum_weight := st.sum_weight + e.weight }

/-- The `i_end` loop (lines 53-72), checked. -/
def scan_inner_checked (dv : ℚ → ℚ → Option ℚ) (num_edges : Nat) (now_src : Int)
    (st : ScanState) : Option ScanState :=
  (List.range' (st.i_start + 1) (num_edges - st.i_start)).foldlM
    (scan_step_checked dv num_edges now_src) st

/-- The `i_start` loop (lines 48-73), checked, entered at `i_start`. -/
def scan_outer_checked (dv : ℚ → ℚ → Option ℚ) (num_edges : Nat) (i_start : Nat)
    (edges : List Edge) : Option (List Edge) :=
  if i_start < num_edges then
    match edges[i_start]? with
    | none => none
    | some e =>
      match h : scan_inner_checked dv num_edges e.src ⟨i_start, e.weight, edges⟩ with
      | none => none
      | some st => scan_outer_checked dv num_edges (st.i_start + 1) st.edges
  else
    some edges
termination_by num_edges - i_start
decreasing_by
  rename_i hlt
  have key : st.i_start = num_edges := by
    unfold scan_inner_checked at h
    obtain ⟨k, hk⟩ : ∃ k, num_edges - i_start = k + 1 := ⟨num_edges - i_start - 1, by omega⟩
    have hlast : i_start + 1 + 1 * k = num_edges := by omega
    simp only [hk, List.range'_concat, List.foldlM_append, hlast] at h
    cases hpre : List.foldlM (scan_step_checked dv num_edges e.src)
        ({ i_start := i_start, sum_weight := e.weight, edges := edges } : ScanState)
        (List.range' (i_start + 1) k) with
    | none => simp [hpre] at h
    | some s =>
      simp only [hpre, Option.bind_eq_bind, Option.some_bind, List.foldlM_cons,
        List.foldlM_nil, scan_step_checked, if_true] at h
      cases hd : divide_run_checked dv s.edges s.sum_weight s.i_start num_edges with
      | none => simp [hd] at h
      | some es =>
        simp [hd] at h
        rw [← h]
  omega

/-- The edge weight normalization block (lines 43-74), checked. -/
def normalize_edges_checked (dv : ℚ → ℚ → Option ℚ) (edges : List Edge) (num_edges : Nat) :
    Option (List Edge) :=
  scan_outer_checked dv num_edges 0 edges

/-- The write `v[i] = x`, checked. -/
def write_checked {α : Type} (v : List α) (i : Nat) (x : α) : Option (List α) :=
  if i < v.length then some (v.set i x) else none

/-- The scan for `max_value` and `min_value` (lines 78-90) with
`personalization[i]` checked. -/
def max_min_scan_checked (personalization : List ℚ) (num_nodes : Nat) : Option (ℚ × ℚ) :=
  (List.range num_nodes).foldlM
    (fun (st : ℚ × ℚ) i =>
      match personalization[i]? with
      | none => none
      | some v =>
        let max_value := if v > st.1 then v else st.1
        let min_value := if v < st.2 then v else st.2
        some (max_value, min_value))
    (0, 1)

/-- The personalization normalization block (lines 76-106), checked: the
accesses `personalization[i]`, and the divisor of `1.0L / num_nodes`, which
must not be zero. -/
def normalize_personalization_checked (personalization : List ℚ) (num_nodes : Nat) :
    Option (List ℚ) :=
  match max_min_scan_checked personalization num_nodes with
  | none => none
  | some (max_value, min_value) =>
    if max_value = min_value then
      (List.range num_nodes).foldlM
        (fun p i =>
          if (num_nodes : ℚ) = 0 then none else write_checked p i (1 / (num_nodes : ℚ)))
        personalization
    else
      (List.range num_nodes).foldlM
        (fun p i =>
          match p[i]? with
          | none => none
          | some v => write_checked p i ((v - min_value) / (max_value - min_value)))
        personalization

/-- The read `v[i]` at a `long long` index, checked. -/
def rd_checked (v : List ℚ) (i : Int) : Option ℚ :=
  if 0 ≤ i then v[i.toNat]? else none

/-- The update `v[i] += x` at a `long long` index, checked. -/
def add_at_checked (v : List ℚ) (i : Int) (x : ℚ) : Option (List ℚ) :=
  if 0 ≤ i then
    match v[i.toNat]? with
    | none => none
    | some y => some (v.set i.toNat (y + x))
  else none

/-- The score initialisation (lines 109-113), checked. -/
def init_score_checked (personalization : List ℚ) (num_nodes : Nat) : Option (List ℚ) :=
  (List.range num_nodes).foldlM
    (fun s i =>
      match personalization[i]? with
      | none => none
      | some v => write_checked s i v)
    (List.replicate num_nodes 0)

/-- The restart term (lines 125-138), checked. -/
def restart_term_checked (personalization : List ℚ) (num_nodes : Nat) (alpha : ℚ) :
    Option (List ℚ) :=
  (List.range num_nodes).foldlM
    (fun ns i =>
      match personalization[i]? with
      | none => none
      | some v => write_checked ns i ((1 - alpha) * v))
    (List.replicate num_nodes 0)

/-- The four-at-a-time loop (lines 149-165), checked: the reads
`edges[i], ..., edges[i + 3]`, `score[edges[..].src]` and `tmp_score[3 - j]`
and the updates `new_score[edges[i + j].dst]`. -/
def simd_loop_checked (edges : List Edge) (num_edges : Nat) (score : List ℚ) (alpha : ℚ)
    (i : Nat) (new_score : List ℚ) : Option (Nat × List ℚ) :=
  if (i : Int) < (num_edges : Int) - 3 then
    match edges[i]?, edges[i + 1]?, edges[i + 2]?, edges[i + 3]? with
    | some e0, some e1, some e2, some e3 =>
      match rd_checked score e0.src, rd_checked score e1.src, rd_checked score e2.src,
          rd_checked score e3.src with
      | some s0, some s1, some s2, some s3 =>
        let alpha_val := _mm256_set1_pd alpha
        let src_score := _mm256_set_pd s0 s1 s2 s3
        let weights := _mm256_set_pd e0.weight e1.weight e2.weight e3.weight
        let new_score_val := _mm256_mul_pd alpha_val src_score
        let new_score_val := _mm256_mul_pd new_score_val weights
        let tmp_score := _mm256_store_pd new_score_val
        match (List.range 4).foldlM
            (fun ns j =>
              match edges[i + j]?, tmp_score[3 - j]? with
              | some e, some t => add_at_checked ns e.dst t
              | _, _ => none)
            new_score with
        | none => none
        | some new_score => simd_loop_checked edges num_edges score alpha (i + 4) new_score
      | _, _, _, _ => none
    | _, _, _, _ => none
  else
    some (i, new_score)
termination_by num_edges - i
decreasing_by omega

/-- The remainder loop (lines 167-170), checked. -/
def remainder_loop_checked (edges : List Edge) (num_edges : Nat) (score : List ℚ) (alpha : ℚ)
    (i : Nat) (new_score : List ℚ) : Option (List ℚ) :=
  (List.range' i (num_edges - i)).foldlM
    (fun ns k =>
      match edges[k]? with
      | none => none
      | some e =>
        match rd_checked score e.src with
        | none => none
        | some s => add_at_checked ns e.dst (alpha * s * e.weight))
    new_score

/-- The propagation block (lines 145-171), checked. -/
def propagate_checked (edges : List Edge) (num_edges : Nat) (score : List ℚ) (alpha : ℚ)
    (new_score : List ℚ) : Option (List ℚ) :=
  match simd_loop_checked edges num_edges score alpha 0 new_score with
  | none => none
  | some r => remainder_loop_checked edges num_edges score alpha r.1 r.2

/-- The computation of `new_score` in one iteration (lines 125-171),
checked. -/
def update_step_checked (edges : List Edge) (num_edges : Nat) (personalization : List ℚ)
    (num_nodes : Nat) (alpha : ℚ) (score : List ℚ) : Option (List ℚ) :=
  match restart_term_checked personalization num_nodes alpha with
  | none => none
  | some new_score => propagate_checked edges num_edges score alpha new_score

/-- The convergence measure (lines 174-178), checked. -/
def l1_diff_checked (new_score score : List ℚ) (num_nodes : Nat) : Option ℚ :=
  (List.range num_nodes).foldlM
    (fun diff i =>
      match new_score[i]?, score[i]? with
      | some a, some b => some (diff + |a - b|)
      | _, _ => none)
    0

/-- The iteration loop (lines 123-186), checked. -/
def iterate_checked (edges : List Edge) (num_edges : Nat) (personalization : List ℚ)
    (num_nodes : Nat) (alpha tol : ℚ) : Nat → List ℚ → Nat → Option (List ℚ × Nat)
  | 0, score, updates => some (score, updates)
  | remaining + 1, score, updates =>
    match update_step_checked edges num_edges personalization num_nodes alpha score with
    | none => none
    | some new_score =>
      match l1_diff_checked new_score score num_nodes with
      | none => none
      | some diff =>
        if diff < tol then
          some (new_score, updates + 1)
        else
          iterate_checked edges num_edges personalization num_nodes alpha tol remaining
            new_score (updates + 1)

/-- The call of `qsort` on the first `nmemb` entries, which must exist. -/
def qsort_checked (base : List Edge) (nmemb : Nat) (compar : Edge → Edge → Int) :
    Option (List Edge) :=
  if nmemb ≤ base.length then some (qsort base nmemb compar) else none

/-- The body of `pagerank` (lines 37-191), checked: `none` when an access
falls outside its array or `1.0L / num_nodes` has a zero divisor, otherwise
the returned score vector and the number of updates performed. -/
def pagerank_checked (edges : List Edge) (num_edges : Nat) (personalization : List ℚ)
    (num_nodes : Nat) (alpha : ℚ) (max_iter : Int) (tol : ℚ) : Option (List ℚ × Nat) :=
  match qsort_checked edges num_edges compare_edges with
  | none => none
  | some edges =>
    match normalize_edges_checked div_plain edges num_edges with
    | none => none
    | some edges =>
      match normalize_personalization_checked personalization num_nodes with
      | none => none
      | some personalization =>
        match init_score_checked personalization num_nodes with
        | none => none
        | some score =>
          iterate_checked edges num_edges personalization num_nodes alpha tol max_iter.toNat
            score 0

/-- The body of `pagerank` (lines 37-191), checked as `pagerank_checked`
is and with the division `edges[i].weight /= sum_weight` guarded as well:
`none` when the scan meets a zero `sum_weight`, where the code stores an
infinity or a NaN in the weight. -/
def pagerank_guarded (edges : List Edge) (num_edges : Nat) (personalization : List ℚ)
    (num_nodes : Nat) (alpha : ℚ) (max_iter : Int) (tol : ℚ) : Option (List ℚ × Nat) :=
  match qsort_checked edges num_edges compare_edges with
  | none => none
  | some edges =>
    match normalize_edges_checked div_guarded edges num_edges with
    | none => none
    | some edges =>
      match normalize_personalization_checked personalization num_nodes with
      | none => none
      | some personalization =>
        match init_score_checked personalization num_nodes with
        | none => none
        | some score =>
          iterate_checked edges num_edges personalization num_nodes alpha tol max_iter.toNat
            score 0

/-- Three edges over the nodes `0` and `2^32`: `0 → 0` of weight `0`,
`2^32 → 0` of weight `1` and `0 → 1` of weight `1`. -/
def gap_edges : List Edge :=
  [⟨0, 0, 0⟩, ⟨4294967296, 0, 1⟩, ⟨0, 1, 1⟩]

/-! ## Folds that write one entry per pass -/

theorem foldl_set_length {α : Type} (g : List α → Nat → α) (is : List Nat) (l : List α) :
    (is.foldl (fun p i => p.set i (g p i)) l).length = l.length := by
  induction is generalizing l with
  | nil => rfl
  | cons i is ih => simp [List.foldl_cons, ih]

theorem foldl_set_range'_getElem? {α : Type} (h : Nat → α → α) (d : α) (s n : Nat)
    (l : List α) (j : Nat) :
    ((List.range' s n).foldl (fun p i => p.set i (h i (p.getD i d))) l)[j]? =
      if s ≤ j ∧ j < s + n then (l[j]?).map (h j) else l[j]? := by
  induction n with
  | zero =>
    have h0 : ¬ (s ≤ j ∧ j < s + 0) := by omega
    simp only [List.range'_zero, List.foldl_nil, if_neg h0]
  | succ n ih =>
    rw [List.range'_concat, List.foldl_append]
    simp only [List.foldl_cons, List.foldl_nil, one_mul]
    rw [List.getElem?_set, foldl_set_length (fun p i => h i (p.getD i d))]
    by_cases hj : s + n = j
    · subst hj
      have hn : ((List.range' s n).foldl (fun p i => p.set i (h i (p.getD i d))) l)[s + n]?
          = l[s + n]? := by
        rw [ih]; simp
      rw [List.getD_eq_getElem?_getD, hn]
      by_cases hlen : s + n < l.length
      · simp [hlen, List.getElem?_eq_getElem hlen]
      · simp [hlen, List.getElem?_eq_none (not_lt.mp hlen)]
    · rw [if_neg hj, ih]
      have h1 : (s ≤ j ∧ j < s + n) ↔ (s ≤ j ∧ j < s + (n + 1)) := by omega
      simp only [h1]

theorem foldl_set_range_getElem? {α : Type} (h : Nat → α → α) (d : α) (n : Nat)
    (l : List α) (j : Nat) :
    ((List.range n).foldl (fun p i => p.set i (h i (p.getD i d))) l)[j]? =
      if j < n then (l[j]?).map (h j) else l[j]? := by
  rw [List.range_eq_range', foldl_set_range'_getElem?]
  simp

/-! ## The personalization normalization -/

theorem max_min_scan_bounds (p : List ℚ) (n : Nat) :
    ∀ i, i < n → p.getD i 0 ≤ (max_min_scan p n).1 ∧ (max_min_scan p n).2 ≤ p.getD i 0 := by
  induction n with
  | zero => intro i hi; omega
  | succ n ih =>
    intro i hi
    have hstep : max_min_scan p (n + 1) =
        ((if p.getD n 0 > (max_min_scan p n).1 then p.getD n 0 else (max_min_scan p n).1),
         (if p.getD n 0 < (max_min_scan p n).2 then p.getD n 0 else (max_min_scan p n).2)) := by
      simp [max_min_scan, List.range_succ, List.foldl_append]
    rw [hstep]
    rcases Nat.lt_succ_iff_lt_or_eq.mp hi with h | h
    · obtain ⟨h1, h2⟩ := ih i h
      constructor
      · show _ ≤ ite _ _ _
        split_ifs with hc
        · exact le_trans h1 (le_of_lt hc)
        · exact h1
      · show ite _ _ _ ≤ _
        split_ifs with hc
        · exact le_trans (le_of_lt hc) h2
        · exact h2
    · subst h
      constructor
      · show _ ≤ ite _ _ _
        split_ifs with hc
        · exact le_refl _
        · exact not_lt.mp hc
      · show ite _ _ _ ≤ _
        split_ifs with hc
        · exact le_refl _
        · exact not_lt.mp hc

theorem normalize_personalization_getElem? (p : List ℚ) (n j : Nat) :
    (normalize_personalization p n)[j]? =
      if j < n then
        (p[j]?).map (fun v =>
          if (max_min_scan p n).1 = (max_min_scan p n).2 then 1 / (n : ℚ)
          else (v - (max_min_scan p n).2) / ((max_min_scan p n).1 - (max_min_scan p n).2))
      else p[j]? := by
  unfold normalize_personalization
  by_cases hc : (max_min_scan p n).1 = (max_min_scan p n).2
  · simp only [hc, if_true]
    exact foldl_set_range_getElem? (fun _ _ => 1 / (n : ℚ)) 0 n p j
  · simp only [hc, if_false]
    exact foldl_set_range_getElem?
      (fun _ v => (v - (max_min_scan p n).2) / ((max_min_scan p n).1 - (max_min_scan p n).2))
      0 n p j

theorem normalize_personalization_length (p : List ℚ) (n : Nat) :
    (normalize_personalization p n).length = p.length := by
  unfold normalize_personalization
  simp only []
  split_ifs
  · exact foldl_set_length (fun _ _ => 1 / (n : ℚ)) _ _
  · exact foldl_set_length (fun p i => (p.getD i 0 - _) / _) _ _

theorem normalize_personalization_mem_range (p : List ℚ) (n : Nat) (hlen : p.length = n)
    (x : ℚ) (hx : x ∈ normalize_personalization p n) : 0 ≤ x ∧ x ≤ 1 := by
  obtain ⟨j, hj⟩ := List.mem_iff_getElem?.mp hx
  have hjn : j < n := by
    by_contra hcon
    have : (normalize_personalization p n)[j]? = none :=
      List.getElem?_eq_none (by rw [normalize_personalization_length]; omega)
    rw [this] at hj
    exact Option.noConfusion hj
  rw [normalize_personalization_getElem?, if_pos hjn,
    List.getElem?_eq_getElem (by omega : j < p.length)] at hj
  simp only [Option.map_some', Option.some.injEq] at hj
  obtain ⟨h1, h2⟩ := max_min_scan_bounds p n j hjn
  rw [List.getD_eq_getElem p 0 (by omega : j < p.length)] at h1 h2
  subst hj
  split_ifs with hc
  · have hn : (1 : ℚ) ≤ (n : ℚ) := by exact_mod_cast (by omega : 1 ≤ n)
    constructor
    · positivity
    · rw [div_le_one (by linarith)]; exact hn
  · have hlt : (max_min_scan p n).2 < (max_min_scan p n).1 :=
      lt_of_le_of_ne (le_trans h2 h1) (Ne.symm hc)
    have hpos : 0 < (max_min_scan p n).1 - (max_min_scan p n).2 := by linarith
    constructor
    · exact div_nonneg (by linarith) (le_of_lt hpos)
    · rw [div_le_one hpos]; linarith

/-! ## The propagation loops -/

theorem add_at_length (v : List ℚ) (i : Int) (x : ℚ) : (add_at v i x).length = v.length := by
  unfold add_at
  split_ifs <;> simp

/-- One pass of the four-at-a-time loop performs the four scalar updates of
its edges, in order. -/
theorem simd_loop_unfold (edges : List Edge) (num_edges : Nat) (score : List ℚ) (alpha : ℚ)
    (i : Nat) (ns : List ℚ) (h : (i : Int) < (num_edges : Int) - 3) :
    simd_loop edges num_edges score alpha i ns =
      simd_loop edges num_edges score alpha (i + 4)
        ((List.range' i 4).foldl
          (fun ns k =>
            add_at ns (edges.getD k default).dst
              (alpha * rd score (edges.getD k default).src * (edges.getD k default).weight))
          ns) := by
  rw [simd_loop, if_pos h]
  simp [List.range_succ, List.range', _mm256_set1_pd, _mm256_set_pd, _mm256_mul_pd,
    _mm256_store_pd]

theorem simd_loop_exit (edges : List Edge) (num_edges : Nat) (score : List ℚ) (alpha : ℚ)
    (i : Nat) (ns : List ℚ) (h : ¬ (i : Int) < (num_edges : Int) - 3) :
    simd_loop edges num_edges score alpha i ns = (i, ns) := by
  rw [simd_loop, if_neg h]

theorem remainder_after_simd (edges : List Edge) (num_edges : Nat) (score : List ℚ) (alpha : ℚ) :
    ∀ (m i : Nat) (ns : List ℚ), num_edges - i ≤ m →
      remainder_loop edges num_edges score alpha
          (simd_loop edges num_edges score alpha i ns).1
          (simd_loop edges num_edges score alpha i ns).2 =
        remainder_loop edges num_edges score alpha i ns := by
  intro m
  induction m with
  | zero =>
    intro i ns hm
    rw [simd_loop_exit _ _ _ _ _ _ (by omega)]
  | succ m ih =>
    intro i ns hm
    by_cases h : (i : Int) < (num_edges : Int) - 3
    · rw [simd_loop_unfold _ _ _ _ _ _ h, ih (i + 4) _ (by omega)]
      unfold remainder_loop
      have hsplit : List.range' i (num_edges - i) =
          List.range' i 4 ++ List.range' (i + 4) (num_edges - (i + 4)) := by
        have : num_edges - i = (num_edges - (i + 4)) + 4 := by omega
        rw [this, List.range'_append_1]
      rw [hsplit, List.foldl_append]
    · rw [simd_loop_exit _ _ _ _ _ _ h]

theorem propagate_eq_original (edges : List Edge) (num_edges : Nat) (score : List ℚ) (alpha : ℚ)
    (new_score : List ℚ) :
    propagate edges num_edges score alpha new_score =
      propagate_original edges num_edges score alpha new_score := by
  unfold propagate
  simp only []
  rw [remainder_after_simd edges num_edges score alpha num_edges 0 new_score (by omega)]
  unfold remainder_loop propagate_original
  rw [List.range_eq_range']
  simp

/-! ## The update step -/

theorem map_getD_range {α : Type} (l : List α) (d : α) :
    (List.range l.length).map (fun i => l.getD i d) = l := by
  apply List.ext_getElem?
  intro n
  by_cases hn : n < l.length
  · simp [hn, List.getElem?_eq_getElem, List.getD_eq_getElem]
  · have hn2 : l.length ≤ n := not_lt.mp hn
    simp [hn2, List.getElem?_eq_none hn2]

theorem foldl_range_getD {α β : Type} (F : β → α → β) (l : List α) (d : α) (init : β) :
    (List.range l.length).foldl (fun a i => F a (l.getD i d)) init = l.foldl F init := by
  conv_rhs => rw [← map_getD_range l d]
  rw [List.foldl_map]

theorem propagate_original_eq_foldl (edges : List Edge) (num_edges : Nat) (score : List ℚ)
    (alpha : ℚ) (new_score : List ℚ) (hlen : edges.length = num_edges) :
    propagate_original edges num_edges score alpha new_score =
      edges.foldl (fun ns e => add_at ns e.dst (alpha * rd score e.src * e.weight)) new_score := by
  unfold propagate_original
  rw [← hlen]
  exact foldl_range_getD
    (fun ns e => add_at ns e.dst (alpha * rd score e.src * e.weight)) edges default new_score

theorem add_at_getD (v : List ℚ) (i : Int) (x : ℚ) (j : Nat) (hj : j < v.length) :
    (add_at v i x).getD j 0 = if i = (j : Int) then v.getD j 0 + x else v.getD j 0 := by
  unfold add_at
  by_cases hi : 0 ≤ i
  · rw [if_pos hi, List.getD_eq_getElem?_getD, List.getElem?_set]
    by_cases hij : i = (j : Int)
    · have h1 : i.toNat = j := by omega
      rw [if_pos h1, if_pos hij, h1, if_pos hj]
      rfl
    · have h1 : ¬ i.toNat = j := by omega
      rw [if_neg h1, if_neg hij, ← List.getD_eq_getElem?_getD]
  · rw [if_neg hi, if_neg (by omega)]

theorem foldl_add_at_length (c : Edge → ℚ) (es : List Edge) (v : List ℚ) :
    (es.foldl (fun ns e => add_at ns e.dst (c e)) v).length = v.length := by
  induction es generalizing v with
  | nil => rfl
  | cons e es ih => rw [List.foldl_cons, ih, add_at_length]

theorem foldl_add_at_getD (c : Edge → ℚ) (es : List Edge) (v : List ℚ) (j : Nat)
    (hj : j < v.length) :
    (es.foldl (fun ns e => add_at ns e.dst (c e)) v).getD j 0 =
      v.getD j 0 + ((es.filter (fun e => decide (e.dst = (j : Int)))).map c).sum := by
  induction es generalizing v with
  | nil => simp
  | cons e es ih =>
    rw [List.foldl_cons, ih _ (by rw [add_at_length]; exact hj), add_at_getD _ _ _ _ hj,
      List.filter_cons]
    by_cases hd : e.dst = (j : Int)
    · simp [hd, add_assoc]
    · simp [hd]

theorem restart_term_length (p : List ℚ) (n : Nat) (alpha : ℚ) :
    (restart_term p n alpha).length = n := by
  unfold restart_term
  rw [foldl_set_length (fun _ i => (1 - alpha) * p.getD i 0), List.length_replicate]

theorem restart_term_getD (p : List ℚ) (n : Nat) (alpha : ℚ) (i : Nat) (hi : i < n) :
    (restart_term p n alpha).getD i 0 = (1 - alpha) * p.getD i 0 := by
  have h := foldl_set_range_getElem? (fun i _ => (1 - alpha) * p.getD i 0) (0 : ℚ) n
    (List.replicate n 0) i
  unfold restart_term
  rw [List.getD_eq_getElem?_getD, h, if_pos hi, List.getElem?_replicate, if_pos hi]
  rfl

theorem update_step_length (edges : List Edge) (num_edges : Nat) (p : List ℚ) (n : Nat)
    (alpha : ℚ) (score : List ℚ) :
    (update_step edges num_edges p n alpha score).length = n := by
  unfold update_step
  rw [propagate_eq_original]
  unfold propagate_original
  have : ∀ (is : List Nat) (v : List ℚ),
      (is.foldl (fun ns i => add_at ns (edges.getD i default).dst
        (alpha * rd score (edges.getD i default).src * (edges.getD i default).weight)) v).length
        = v.length := by
    intro is
    induction is with
    | nil => intro v; rfl
    | cons i is ih => intro v; rw [List.foldl_cons, ih, add_at_length]
  rw [this, restart_term_length]

theorem update_step_getD (edges : List Edge) (num_edges : Nat) (p : List ℚ) (n : Nat)
    (alpha : ℚ) (score : List ℚ) (hlen : edges.length = num_edges) (i : Nat) (hi : i < n) :
    (update_step edges num_edges p n alpha score).getD i 0 =
      (1 - alpha) * p.getD i 0 +
        ((edges.filter (fun e => decide (e.dst = (i : Int)))).map
          (fun e => alpha * rd score e.src * e.weight)).sum := by
  unfold update_step
  rw [propagate_eq_original, propagate_original_eq_foldl _ _ _ _ _ hlen,
    foldl_add_at_getD (fun e => alpha * rd score e.src * e.weight) edges _ i
      (by rw [restart_term_length]; exact hi),
    restart_term_getD _ _ _ _ hi]

/-! ## The iteration loop -/

theorem init_score_length (p : List ℚ) (n : Nat) : (init_score p n).length = n := by
  unfold init_score
  rw [foldl_set_length (fun _ i => p.getD i 0), List.length_replicate]

theorem init_score_getElem? (p : List ℚ) (n j : Nat) :
    (init_score p n)[j]? = if j < n then some (p.getD j 0) else none := by
  have h := foldl_set_range_getElem? (fun i _ => p.getD i 0) (0 : ℚ) n (List.replicate n 0) j
  unfold init_score
  rw [h, List.getElem?_replicate]
  split_ifs <;> rfl

theorem init_score_eq (p : List ℚ) (n : Nat) (hlen : p.length = n) : init_score p n = p := by
  apply List.ext_getElem?
  intro j
  rw [init_score_getElem?]
  by_cases hj : j < n
  · rw [if_pos hj, List.getD_eq_getElem p 0 (by omega : j < p.length),
      List.getElem?_eq_getElem (by omega : j < p.length)]
  · rw [if_neg hj, List.getElem?_eq_none (by omega)]

theorem iterate_zero (edges : List Edge) (num_edges : Nat) (p : List ℚ) (n : Nat)
    (alpha tol : ℚ) (score : List ℚ) (updates : Nat) :
    iterate edges num_edges p n alpha tol 0 score updates = (score, updates) := by
  rw [iterate]

theorem iterate_succ (edges : List Edge) (num_edges : Nat) (p : List ℚ) (n : Nat)
    (alpha tol : ℚ) (f : List ℚ → List ℚ) (hf : update_step edges num_edges p n alpha = f)
    (r : Nat) (score : List ℚ) (updates : Nat) :
    iterate edges num_edges p n alpha tol (r + 1) score updates =
      if l1_diff (f score) score n < tol then (f score, updates + 1)
      else iterate edges num_edges p n alpha tol r (f score) (updates + 1) := by
  rw [iterate, hf]

/-- The iteration loop entered with `remaining` passes left stops after
some `K ≤ remaining` updates with the `K`-th iterate; no earlier update met
the tolerance, and when `K < remaining` the `K`-th did. -/
theorem iterate_spec_aux (edges : List Edge) (num_edges : Nat) (p : List ℚ) (n : Nat)
    (alpha tol : ℚ) (f : List ℚ → List ℚ) (hf : update_step edges num_edges p n alpha = f) :
    ∀ (remaining : Nat) (score : List ℚ) (updates : Nat),
      ∃ K, K ≤ remaining ∧
        iterate edges num_edges p n alpha tol remaining score updates =
          (f^[K] score, updates + K) ∧
        (0 < remaining → 0 < K) ∧
        (∀ k, 1 ≤ k → k < K → ¬ l1_diff (f^[k] score) (f^[k - 1] score) n < tol) ∧
        (K < remaining → l1_diff (f^[K] score) (f^[K - 1] score) n < tol) := by
  intro remaining
  induction remaining with
  | zero =>
    intro score updates
    exact ⟨0, le_refl _, iterate_zero _ _ _ _ _ _ _ _, fun h => absurd h (lt_irrefl _),
      fun k h1 h2 => by omega, fun h => absurd h (lt_irrefl _)⟩
  | succ r ih =>
    intro score updates
    rw [iterate_succ edges num_edges p n alpha tol f hf]
    by_cases hd : l1_diff (f score) score n < tol
    · refine ⟨1, by omega, ?_, fun _ => Nat.one_pos, fun k h1 h2 => by omega, fun _ => ?_⟩
      · rw [if_pos hd, Function.iterate_one]
      · rw [Function.iterate_one, Nat.sub_self, Function.iterate_zero, id]
        exact hd
    · obtain ⟨K, hK, hres, hpos, hbefore, hat⟩ := ih (f score) (updates + 1)
      refine ⟨K + 1, by omega, ?_, fun _ => Nat.succ_pos K, ?_, ?_⟩
      · rw [if_neg hd, hres, Function.iterate_succ_apply, add_assoc, add_comm 1 K]
      · intro k h1 h2
        rcases Nat.eq_or_lt_of_le h1 with h | h
        · subst h
          rw [Function.iterate_one, Nat.sub_self, Function.iterate_zero, id]
          exact hd
        · obtain ⟨k', rfl⟩ : ∃ k', k = k' + 1 + 1 := ⟨k - 2, by omega⟩
          have := hbefore (k' + 1) (by omega) (by omega)
          rw [Nat.add_sub_cancel] at this
          rw [Nat.add_sub_cancel, Function.iterate_succ_apply, Function.iterate_succ_apply f k']
          exact this
      · intro hlt
        have hK0 : K < r := by omega
        have := hat hK0
        obtain ⟨K', rfl⟩ : ∃ K', K = K' + 1 := ⟨K - 1, by have := hpos (by omega); omega⟩
        rw [Nat.add_sub_cancel] at this
        rw [Nat.add_sub_cancel, Function.iterate_succ_apply, Function.iterate_succ_apply f K']
        exact this

theorem iterate_spec (edges : List Edge) (num_edges : Nat) (p : List ℚ) (n : Nat)
    (alpha tol : ℚ) (remaining : Nat) (score : List ℚ) (updates : Nat) :
      ∃ K, K ≤ remaining ∧
        iterate edges num_edges p n alpha tol remaining score updates =
          ((update_step edges num_edges p n alpha)^[K] score, updates + K) ∧
        (0 < remaining → 0 < K) ∧
        (∀ k, 1 ≤ k → k < K →
          ¬ l1_diff ((update_step edges num_edges p n alpha)^[k] score)
              ((update_step edges num_edges p n alpha)^[k - 1] score) n < tol) ∧
        (K < remaining →
          l1_diff ((update_step edges num_edges p n alpha)^[K] score)
              ((update_step edges num_edges p n alpha)^[K - 1] score) n < tol) :=
  iterate_spec_aux edges num_edges p n alpha tol _ rfl remaining score updates

/-! ## Non-negative edge weights -/

theorem foldl_set_forall {α : Type} (P : α → Prop) (g : List α → Nat → α)
    (hg : ∀ l i, (∀ x ∈ l, P x) → P (g l i)) (is : List Nat) (l : List α)
    (hl : ∀ x ∈ l, P x) : ∀ x ∈ is.foldl (fun p i => p.set i (g p i)) l, P x := by
  induction is generalizing l with
  | nil => exact hl
  | cons i is ih =>
    rw [List.foldl_cons]
    apply ih
    intro x hx
    rcases List.mem_or_eq_of_mem_set hx with h | h
    · exact hl x h
    · rw [h]; exact hg l i hl

theorem foldl_invariant {α β : Type} (P : β → Prop) (F : β → α → β)
    (hF : ∀ b a, P b → P (F b a)) (l : List α) (init : β) (h0 : P init) :
    P (l.foldl F init) := by
  induction l generalizing init with
  | nil => exact h0
  | cons a l ih => rw [List.foldl_cons]; exact ih _ (hF _ _ h0)

theorem getD_weight_nonneg (es : List Edge) (h : ∀ e ∈ es, 0 ≤ e.weight) (i : Nat) :
    0 ≤ (es.getD i default).weight := by
  by_cases hi : i < es.length
  · rw [List.getD_eq_getElem es default hi]
    exact h _ (List.getElem_mem hi)
  · rw [List.getD_eq_default es default (not_lt.mp hi)]
    exact le_refl _

theorem divide_run_nonneg (es : List Edge) (s : ℚ) (a b : Nat)
    (h : ∀ e ∈ es, 0 ≤ e.weight) (hs : 0 ≤ s) : ∀ e ∈ divide_run es s a b, 0 ≤ e.weight := by
  unfold divide_run
  exact foldl_set_forall (fun e => 0 ≤ e.weight)
    (fun l i => { l.getD i default with weight := (l.getD i default).weight / s })
    (fun l i hl => div_nonneg (getD_weight_nonneg l hl i) hs) _ es h

theorem scan_step_nonneg (num_edges : Nat) (now_src : Int) (st : ScanState) (i_end : Nat)
    (h : (∀ e ∈ st.edges, 0 ≤ e.weight) ∧ 0 ≤ st.sum_weight) :
    (∀ e ∈ (scan_step num_edges now_src st i_end).edges, 0 ≤ e.weight) ∧
      0 ≤ (scan_step num_edges now_src st i_end).sum_weight := by
  unfold scan_step
  split_ifs with hc
  · exact ⟨divide_run_nonneg _ _ _ _ h.1 h.2, h.2⟩
  · exact ⟨h.1, add_nonneg h.2 (getD_weight_nonneg _ h.1 _)⟩

theorem scan_inner_nonneg (num_edges : Nat) (now_src : Int) (st : ScanState)
    (h : (∀ e ∈ st.edges, 0 ≤ e.weight) ∧ 0 ≤ st.sum_weight) :
    ∀ e ∈ (scan_inner num_edges now_src st).edges, 0 ≤ e.weight := by
  unfold scan_inner
  exact (foldl_invariant
    (fun st : ScanState => (∀ e ∈ st.edges, 0 ≤ e.weight) ∧ 0 ≤ st.sum_weight)
    (scan_step num_edges now_src)
    (fun st i hst => scan_step_nonneg num_edges now_src st i hst) _ st h).1

theorem scan_outer_nonneg (num_edges : Nat) (i_start : Nat) (edges : List Edge)
    (h : ∀ e ∈ edges, 0 ≤ e.weight) : ∀ e ∈ scan_outer num_edges i_start edges, 0 ≤ e.weight := by
  induction i_start, edges using scan_outer.induct num_edges with
  | case1 i_start edges hlt now_src sum_weight st ih =>
    rw [scan_outer, if_pos hlt]
    exact ih (scan_inner_nonneg num_edges _ _ ⟨h, getD_weight_nonneg edges h i_start⟩)
  | case2 i_start edges hge =>
    rw [scan_outer, if_neg hge]
    exact h

theorem normalize_edges_nonneg (edges : List Edge) (num_edges : Nat)
    (h : ∀ e ∈ edges, 0 ≤ e.weight) : ∀ e ∈ normalize_edges edges num_edges, 0 ≤ e.weight :=
  scan_outer_nonneg num_edges 0 edges h

theorem qsort_mem (base : List Edge) (nmemb : Nat) (compar : Edge → Edge → Int) (e : Edge)
    (he : e ∈ qsort base nmemb compar) : e ∈ base := by
  unfold qsort at he
  rcases List.mem_append.mp he with h | h
  · exact List.mem_of_mem_take ((List.perm_insertionSort _ _).mem_iff.mp h)
  · exact List.mem_of_mem_drop h

/-! ## Non-negative scores -/

theorem getD_nonneg (v : List ℚ) (h : ∀ x ∈ v, 0 ≤ x) (i : Nat) : 0 ≤ v.getD i 0 := by
  by_cases hi : i < v.length
  · rw [List.getD_eq_getElem v 0 hi]
    exact h _ (List.getElem_mem hi)
  · rw [List.getD_eq_default v 0 (not_lt.mp hi)]

theorem rd_nonneg (v : List ℚ) (h : ∀ x ∈ v, 0 ≤ x) (i : Int) : 0 ≤ rd v i := by
  unfold rd
  split_ifs
  · exact getD_nonneg v h _
  · exact le_refl _

theorem add_at_nonneg (v : List ℚ) (i : Int) (x : ℚ) (h : ∀ y ∈ v, 0 ≤ y) (hx : 0 ≤ x) :
    ∀ y ∈ add_at v i x, 0 ≤ y := by
  unfold add_at
  split_ifs
  · intro y hy
    rcases List.mem_or_eq_of_mem_set hy with h1 | h1
    · exact h y h1
    · rw [h1]; exact add_nonneg (getD_nonneg v h _) hx
  · exact h

theorem init_score_nonneg (p : List ℚ) (n : Nat) (h : ∀ x ∈ p, 0 ≤ x) :
    ∀ x ∈ init_score p n, 0 ≤ x := by
  intro x hx
  obtain ⟨j, hj⟩ := List.mem_iff_getElem?.mp hx
  rw [init_score_getElem?] at hj
  split_ifs at hj
  simp only [Option.some.injEq] at hj
  rw [← hj]
  exact getD_nonneg p h j

theorem restart_term_nonneg (p : List ℚ) (n : Nat) (alpha : ℚ) (h : ∀ x ∈ p, 0 ≤ x)
    (ha : alpha ≤ 1) : ∀ x ∈ restart_term p n alpha, 0 ≤ x := by
  unfold restart_term
  refine foldl_set_forall (fun x : ℚ => 0 ≤ x) (fun _ i => (1 - alpha) * p.getD i 0)
    (fun _ i _ => mul_nonneg (by linarith) (getD_nonneg p h i)) _ _ ?_
  intro x hx
  rw [(List.mem_replicate.mp hx).2]

theorem update_step_nonneg (edges : List Edge) (num_edges : Nat) (p : List ℚ) (n : Nat)
    (alpha : ℚ) (score : List ℚ) (hw : ∀ e ∈ edges, 0 ≤ e.weight) (hp : ∀ x ∈ p, 0 ≤ x)
    (ha0 : 0 ≤ alpha) (ha1 : alpha ≤ 1) (hs : ∀ x ∈ score, 0 ≤ x) :
    ∀ x ∈ update_step edges num_edges p n alpha score, 0 ≤ x := by
  unfold update_step
  rw [propagate_eq_original]
  unfold propagate_original
  exact foldl_invariant (fun v : List ℚ => ∀ x ∈ v, 0 ≤ x)
    (fun ns i => add_at ns (edges.getD i default).dst
      (alpha * rd score (edges.getD i default).src * (edges.getD i default).weight))
    (fun v i hv => add_at_nonneg v _ _ hv
      (mul_nonneg (mul_nonneg ha0 (rd_nonneg score hs _)) (getD_weight_nonneg edges hw i)))
    _ _ (restart_term_nonneg p n alpha hp ha1)

theorem iterate_step_nonneg (f : List ℚ → List ℚ)
    (hf : ∀ s : List ℚ, (∀ x ∈ s, 0 ≤ x) → ∀ x ∈ f s, 0 ≤ x) (K : Nat) (score : List ℚ)
    (hs : ∀ x ∈ score, 0 ≤ x) : ∀ x ∈ f^[K] score, 0 ≤ x := by
  induction K with
  | zero => exact hs
  | succ K ih =>
    rw [Function.iterate_succ_apply']
    exact hf _ ih

theorem iterate_step_length (f : List ℚ → List ℚ) (n : Nat)
    (hf : ∀ s : List ℚ, (f s).length = n) (K : Nat) (score : List ℚ)
    (hs : score.length = n) : (f^[K] score).length = n := by
  induction K with
  | zero => exact hs
  | succ K ih =>
    rw [Function.iterate_succ_apply']
    exact hf _

/-- The result of `pagerank_run` in terms of the iterates of the update
step on the normalized inputs. -/
theorem pagerank_run_spec (edges : List Edge) (num_edges : Nat) (personalization : List ℚ)
    (num_nodes : Nat) (alpha : ℚ) (max_iter : Int) (tol : ℚ) :
    ∃ K, K ≤ max_iter.toNat ∧
      pagerank_run edges num_edges personalization num_nodes alpha max_iter tol =
        ((update_step (normalize_edges (qsort edges num_edges compare_edges) num_edges) num_edges
            (normalize_personalization personalization num_nodes) num_nodes alpha)^[K]
          (init_score (normalize_personalization personalization num_nodes) num_nodes), K) ∧
      (0 < max_iter.toNat → 0 < K) ∧
      (∀ k, 1 ≤ k → k < K →
        ¬ l1_diff
          ((update_step (normalize_edges (qsort edges num_edges compare_edges) num_edges) num_edges
            (normalize_personalization personalization num_nodes) num_nodes alpha)^[k]
            (init_score (normalize_personalization personalization num_nodes) num_nodes))
          ((update_step (normalize_edges (qsort edges num_edges compare_edges) num_edges) num_edges
            (normalize_personalization personalization num_nodes) num_nodes alpha)^[k - 1]
            (init_score (normalize_personalization personalization num_nodes) num_nodes))
          num_nodes < tol) ∧
      (K < max_iter.toNat →
        l1_diff
          ((update_step (normalize_edges (qsort edges num_edges compare_edges) num_edges) num_edges
            (normalize_personalization personalization num_nodes) num_nodes alpha)^[K]
            (init_score (normalize_personalization personalization num_nodes) num_nodes))
          ((update_step (normalize_edges (qsort edges num_edges compare_edges) num_edges) num_edges
            (normalize_personalization personalization num_nodes) num_nodes alpha)^[K - 1]
            (init_score (normalize_personalization personalization num_nodes) num_nodes))
          num_nodes < tol) := by
  obtain ⟨K, h1, h2, h3, h4, h5⟩ := iterate_spec
    (normalize_edges (qsort edges num_edges compare_edges) num_edges) num_edges
    (normalize_personalization personalization num_nodes) num_nodes alpha tol max_iter.toNat
    (init_score (normalize_personalization personalization num_nodes) num_nodes) 0
  refine ⟨K, h1, ?_, h3, h4, h5⟩
  unfold pagerank_run
  rw [h2, Nat.zero_add]

/-- In the embedding without checks the returned vector has `num_nodes`
non-negative entries. This speaks for the code only where the edge scan
meets no zero `sum_weight`, which `pagerank_guarded_eq` adds. -/
theorem pagerank_nonneg_aux (edges : List Edge) (num_edges : Nat) (personalization : List ℚ)
    (num_nodes : Nat) (alpha : ℚ) (max_iter : Int) (tol : ℚ)
    (hp : personalization.length = num_nodes)
    (hw : ∀ e ∈ edges, 0 ≤ e.weight) (ha0 : 0 ≤ alpha) (ha1 : alpha < 1) :
    (pagerank edges num_edges personalization num_nodes alpha max_iter tol).length = num_nodes ∧
      ∀ x ∈ pagerank edges num_edges personalization num_nodes alpha max_iter tol, 0 ≤ x := by
  obtain ⟨K, -, hres, -, -, -⟩ :=
    pagerank_run_spec edges num_edges personalization num_nodes alpha max_iter tol
  unfold pagerank
  rw [hres]
  have hpn : ∀ x ∈ normalize_personalization personalization num_nodes, 0 ≤ x :=
    fun x hx => (normalize_personalization_mem_range personalization num_nodes hp x hx).1
  have hwn : ∀ e ∈ normalize_edges (qsort edges num_edges compare_edges) num_edges,
      0 ≤ e.weight :=
    normalize_edges_nonneg _ _ (fun e he => hw e (qsort_mem _ _ _ e he))
  constructor
  · exact iterate_step_length _ num_nodes (fun s => update_step_length _ _ _ _ _ s) K _
      (init_score_length _ _)
  · exact iterate_step_nonneg _
      (fun s hs => update_step_nonneg _ _ _ _ _ s hwn hpn ha0 (le_of_lt ha1) hs) K _
      (init_score_nonneg _ _ hpn)

/-! ## The claims on the normalization blocks and the update step -/

theorem qsort_main_edges :
    qsort main_edges 6 compare_edges =
      [⟨0, 1, 1/2⟩, ⟨1, 2, 3/10⟩, ⟨1, 3, 2/5⟩, ⟨2, 0, 1/5⟩, ⟨3, 4, 3/5⟩, ⟨4, 1, 7/10⟩] := by
  simp [qsort, main_edges, compare_edges, to_int, List.insertionSort, List.orderedInsert]
  decide

/-- On the edges of the test driver the scan divides every weight by
`1/2`, the total weight of the edges leaving node 0. -/
theorem normalize_main_edges :
    normalize_edges (qsort main_edges 6 compare_edges) 6 =
      [⟨0, 1, 1⟩, ⟨1, 2, 3/5⟩, ⟨1, 3, 4/5⟩, ⟨2, 0, 2/5⟩, ⟨3, 4, 6/5⟩, ⟨4, 1, 7/5⟩] := by
  rw [qsort_main_edges, normalize_edges, scan_outer]
  simp [scan_inner, scan_step, divide_run, List.range']
  rw [scan_outer]
  norm_num

/-- Claim C1, evaluated on the edge array of the test driver: after the sort
and the normalization the two edges leaving node 1 carry the weights `3/5`
and `4/5` (their weights `3/10` and `2/5` over `1/2`, the total of node 0),
where the claim requires `3/7` and `4/7`. -/
theorem normalize_edges_main_node1 :
    (normalize_edges (qsort main_edges 6 compare_edges) 6).filter (fun e => decide (e.src = 1)) =
      [⟨1, 2, 3/5⟩, ⟨1, 3, 4/5⟩] := by
  rw [normalize_main_edges]
  simp [List.filter]

/-- Claim C2, evaluated on the edge array of the test driver: after the
normalization the weights of the edges leaving node 1 sum to `7/5`, where
the claim requires `1`. -/
theorem normalize_edges_main_node1_sum :
    out_weight (normalize_edges (qsort main_edges 6 compare_edges) 6) 1 = 7/5 := by
  rw [normalize_main_edges]
  simp [out_weight, List.filter]
  norm_num

/-- Claim C3, evaluated on the vector `[2, 3]`: the entries become `1/2` and
`1`, that is `(v - 1) / (3 - 1)` with the scan's initial `min_value = 1`,
where the claim requires `(v - 2) / (3 - 2)`, that is `0` and `1`. -/
theorem normalize_personalization_two_three :
    normalize_personalization [2, 3] 2 = [1/2, 1] := by
  simp [normalize_personalization, max_min_scan, List.range_succ]
  norm_num

/-- Claim C4, evaluated on the constant vector `[2, 2]`: the scan ends with
`max_value = 2` and `min_value = 1`, the scaling branch runs and every entry
becomes `1`, where the claim requires `1/2`. -/
theorem normalize_personalization_const_two :
    normalize_personalization [2, 2] 2 = [1, 1] := by
  simp [normalize_personalization, max_min_scan, List.range_succ]
  norm_num

/-- Claim C5: for a personalization vector of length `num_nodes > 0`, every
entry of the normalized vector lies in `[0, 1]`. -/
theorem normalize_personalization_range (personalization : List ℚ) (num_nodes : Nat)
    (_hn : 0 < num_nodes) (hlen : personalization.length = num_nodes) :
    ∀ x ∈ normalize_personalization personalization num_nodes, 0 ≤ x ∧ x ≤ 1 :=
  fun x hx => normalize_personalization_mem_range personalization num_nodes hlen x hx

theorem normalize_personalization_range_witness :
    0 < 5 ∧ main_personalization.length = 5 ∧
      ∀ x ∈ normalize_personalization main_personalization 5, 0 ≤ x ∧ x ≤ 1 :=
  ⟨by decide, rfl, normalize_personalization_range main_personalization 5 (by decide) rfl⟩

/-- Claim C7: for every `num_edges`, edge array, score vector, `alpha` and
`new_score`, the four-at-a-time loop followed by the remainder loop leaves
`new_score` as the documented original loop leaves it. -/
theorem propagate_refines_original (edges : List Edge) (num_edges : Nat) (score : List ℚ)
    (alpha : ℚ) (new_score : List ℚ) :
    propagate edges num_edges score alpha new_score =
      propagate_original edges num_edges score alpha new_score :=
  propagate_eq_original edges num_edges score alpha new_score

/-! ## The claims on the iteration -/

theorem init_score_normalized (personalization : List ℚ) (num_nodes : Nat)
    (hlen : personalization.length = num_nodes) :
    init_score (normalize_personalization personalization num_nodes) num_nodes =
      normalize_personalization personalization num_nodes :=
  init_score_eq _ _ (by rw [normalize_personalization_length]; exact hlen)

/-- Claim C9: with `max_iter = k` the function `pagerank`, which is total,
performs at most `k` updates, whatever the input and `tol`; with
`max_iter = 0` it performs none and, the personalization vector having
`num_nodes` entries, returns the normalized personalization vector. -/
theorem pagerank_iteration_ceiling (edges : List Edge) (num_edges : Nat)
    (personalization : List ℚ) (num_nodes : Nat) (alpha : ℚ) (k : Nat) (tol : ℚ) :
    (pagerank_run edges num_edges personalization num_nodes alpha (k : Int) tol).2 ≤ k ∧
      (pagerank_run edges num_edges personalization num_nodes alpha 0 tol).2 = 0 ∧
      (personalization.length = num_nodes →
        pagerank edges num_edges personalization num_nodes alpha 0 tol =
          normalize_personalization personalization num_nodes) := by
  obtain ⟨K, hK, hres, -, -, -⟩ :=
    pagerank_run_spec edges num_edges personalization num_nodes alpha (k : Int) tol
  obtain ⟨K0, hK0, hres0, -, -, -⟩ :=
    pagerank_run_spec edges num_edges personalization num_nodes alpha 0 tol
  rw [Int.toNat_ofNat] at hK
  have hz : K0 = 0 := by
    rw [Int.toNat_zero] at hK0
    omega
  subst hz
  unfold pagerank
  rw [hres, hres0]
  exact ⟨hK, rfl, fun hlen => init_score_normalized personalization num_nodes hlen⟩

theorem pagerank_iteration_ceiling_witness :
    main_personalization.length = 5 ∧
      pagerank main_edges 6 main_personalization 5 (17/20) 0 (1/1000000) =
        normalize_personalization main_personalization 5 :=
  ⟨rfl, (pagerank_iteration_ceiling main_edges 6 main_personalization 5 (17/20) 0
    (1/1000000)).2.2 rfl⟩

/-! ## The comparison callback -/

theorem int_xor_eq_zero (a b : Int) : Int.xor a b = 0 ↔ a = b := by
  cases a <;> cases b <;> simp [Int.xor, Nat.xor_eq_zero]

theorem to_int_of_small (x : Int) (h1 : -2 ^ 31 ≤ x) (h2 : x < 2 ^ 31) : to_int x = x := by
  unfold to_int
  omega

/-- For ids below `2^31` the value `compare_edges` returns has the sign of
the lexicographic comparison of `(src, dst)`. -/
theorem compare_edges_small (a b : Edge)
    (ha : 0 ≤ a.src ∧ a.src < 2 ^ 31 ∧ 0 ≤ a.dst ∧ a.dst < 2 ^ 31)
    (hb : 0 ≤ b.src ∧ b.src < 2 ^ 31 ∧ 0 ≤ b.dst ∧ b.dst < 2 ^ 31) :
    (compare_edges a b < 0 ↔ (a.src < b.src ∨ (a.src = b.src ∧ a.dst < b.dst))) ∧
      (compare_edges a b = 0 ↔ (a.src = b.src ∧ a.dst = b.dst)) := by
  unfold compare_edges
  by_cases h : a.src = b.src
  · have hx : ¬ Int.xor a.src b.src ≠ 0 := by
      rw [not_not, int_xor_eq_zero]; exact h
    rw [if_neg hx, to_int_of_small _ (by omega) (by omega)]
    constructor <;> constructor <;> intro h' <;> omega
  · have hx : Int.xor a.src b.src ≠ 0 := by
      rw [Ne, int_xor_eq_zero]; exact h
    rw [if_pos hx, to_int_of_small _ (by omega) (by omega)]
    constructor <;> constructor <;> intro h' <;> omega

/-- Claim C13, evaluated on ids that differ by `2^31` and by `2^32`: for the
sources `2^31` and `0` the returned `int` is negative although `(2^31, 0)`
does not precede `(0, 0)`, and for the sources `2^32` and `0` it is zero
although the pairs differ. -/
theorem compare_edges_narrowed :
    compare_edges ⟨2147483648, 0, 1⟩ ⟨0, 0, 1⟩ = -2147483648 ∧
      compare_edges ⟨4294967296, 0, 1⟩ ⟨0, 0, 1⟩ = 0 := by
  decide

/-! ## What the scan leaves alone -/

theorem foldl_set_forall_of_lt {α : Type} (P : α → Prop) (g : List α → Nat → α)
    (hg : ∀ l i, i < l.length → (∀ x ∈ l, P x) → P (g l i)) (is : List Nat) (l : List α)
    (hl : ∀ x ∈ l, P x) : ∀ x ∈ is.foldl (fun p i => p.set i (g p i)) l, P x := by
  induction is generalizing l with
  | nil => exact hl
  | cons i is ih =>
    rw [List.foldl_cons]
    apply ih
    intro x hx
    by_cases hi : i < l.length
    · rcases List.mem_or_eq_of_mem_set hx with h | h
      · exact hl x h
      · rw [h]; exact hg l i hi hl
    · rw [List.set_eq_of_length_le (not_lt.mp hi)] at hx
      exact hl x hx

/-- A property of `src` and `dst` that holds for every edge of the array
holds for every edge after the normalization: the scan writes weights
only. -/
theorem divide_run_ids (P : Int → Int → Prop) (es : List Edge) (s : ℚ) (a b : Nat)
    (h : ∀ e ∈ es, P e.src e.dst) : ∀ e ∈ divide_run es s a b, P e.src e.dst := by
  unfold divide_run
  refine foldl_set_forall_of_lt (fun e => P e.src e.dst)
    (fun l i => { l.getD i default with weight := (l.getD i default).weight / s })
    (fun l i hi hl => ?_) _ es h
  show P (l.getD i default).src (l.getD i default).dst
  rw [List.getD_eq_getElem l default hi]
  exact hl _ (List.getElem_mem hi)

theorem divide_run_length (es : List Edge) (s : ℚ) (a b : Nat) :
    (divide_run es s a b).length = es.length := by
  unfold divide_run
  exact foldl_set_length
    (fun l i => { l.getD i default with weight := (l.getD i default).weight / s }) _ es

theorem scan_step_ids (P : Int → Int → Prop) (num_edges : Nat) (now_src : Int) (st : ScanState)
    (i_end : Nat) (h : ∀ e ∈ st.edges, P e.src e.dst) :
    ∀ e ∈ (scan_step num_edges now_src st i_end).edges, P e.src e.dst := by
  unfold scan_step
  split_ifs with hc
  · exact divide_run_ids P _ _ _ _ h
  · exact h

theorem scan_step_length (num_edges : Nat) (now_src : Int) (st : ScanState) (i_end : Nat) :
    (scan_step num_edges now_src st i_end).edges.length = st.edges.length := by
  unfold scan_step
  split_ifs with hc
  · exact divide_run_length _ _ _ _
  · rfl

theorem scan_inner_ids (P : Int → Int → Prop) (num_edges : Nat) (now_src : Int) (st : ScanState)
    (h : ∀ e ∈ st.edges, P e.src e.dst) :
    ∀ e ∈ (scan_inner num_edges now_src st).edges, P e.src e.dst := by
  unfold scan_inner
  exact foldl_invariant (fun st : ScanState => ∀ e ∈ st.edges, P e.src e.dst)
    (scan_step num_edges now_src)
    (fun st i hst => scan_step_ids P num_edges now_src st i hst) _ st h

theorem scan_inner_length (num_edges : Nat) (now_src : Int) (st : ScanState) :
    (scan_inner num_edges now_src st).edges.length = st.edges.length := by
  unfold scan_inner
  exact foldl_invariant (fun s : ScanState => s.edges.length = st.edges.length)
    (scan_step num_edges now_src)
    (fun s i hs => (scan_step_length num_edges now_src s i).trans hs) _ st rfl

theorem scan_outer_ids (P : Int → Int → Prop) (num_edges : Nat) (i_start : Nat)
    (edges : List Edge) (h : ∀ e ∈ edges, P e.src e.dst) :
    ∀ e ∈ scan_outer num_edges i_start edges, P e.src e.dst := by
  induction i_start, edges using scan_outer.induct num_edges with
  | case1 i_start edges hlt now_src sum_weight st ih =>
    rw [scan_outer, if_pos hlt]
    exact ih (scan_inner_ids P num_edges _ _ h)
  | case2 i_start edges hge =>
    rw [scan_outer, if_neg hge]
    exact h

theorem scan_outer_length (num_edges : Nat) (i_start : Nat) (edges : List Edge) :
    (scan_outer num_edges i_start edges).length = edges.length := by
  induction i_start, edges using scan_outer.induct num_edges with
  | case1 i_start edges hlt now_src sum_weight st ih =>
    rw [scan_outer, if_pos hlt]
    simp only []
    rw [ih, scan_inner_length]
  | case2 i_start edges hge =>
    rw [scan_outer, if_neg hge]

theorem qsort_length (base : List Edge) (nmemb : Nat) (compar : Edge → Edge → Int) :
    (qsort base nmemb compar).length = base.length := by
  unfold qsort
  rw [List.length_append, List.length_insertionSort, ← List.length_append,
    List.take_append_drop]

/-- The edge array `pagerank` iterates on has the length of the array it
received, and its edges have the `src` and `dst` of edges received. -/
theorem normalized_edges_length (edges : List Edge) (num_edges : Nat) :
    (normalize_edges (qsort edges num_edges compare_edges) num_edges).length = edges.length := by
  unfold normalize_edges
  rw [scan_outer_length, qsort_length]

theorem normalized_edges_ids (P : Int → Int → Prop) (edges : List Edge) (num_edges : Nat)
    (h : ∀ e ∈ edges, P e.src e.dst) :
    ∀ e ∈ normalize_edges (qsort edges num_edges compare_edges) num_edges, P e.src e.dst := by
  unfold normalize_edges
  exact scan_outer_ids P _ _ _ (fun e he => h e (qsort_mem _ _ _ e he))

/-! ## Nodes that are no destination -/

theorem filter_dst_eq_nil (es : List Edge) (j : Nat) (h : ∀ e ∈ es, e.dst ≠ (j : Int)) :
    es.filter (fun e => decide (e.dst = (j : Int))) = [] := by
  rw [List.filter_eq_nil_iff]
  intro e he
  simpa using h e he

theorem propagate_frame (edges : List Edge) (num_edges : Nat) (score : List ℚ) (alpha : ℚ)
    (new_score : List ℚ) (hlen : edges.length = num_edges) (j : Nat)
    (hj : ∀ e ∈ edges, e.dst ≠ (j : Int)) :
    (propagate edges num_edges score alpha new_score).getD j 0 = new_score.getD j 0 := by
  rw [propagate_eq_original, propagate_original_eq_foldl _ _ _ _ _ hlen]
  by_cases hlt : j < new_score.length
  · rw [foldl_add_at_getD (fun e => alpha * rd score e.src * e.weight) edges _ j hlt,
      filter_dst_eq_nil edges j hj]
    simp
  · rw [List.getD_eq_default _ _ (not_lt.mp hlt),
      List.getD_eq_default _ _ (by
        rw [foldl_add_at_length (fun e => alpha * rd score e.src * e.weight)]
        exact not_lt.mp hlt)]

theorem update_step_non_destination (edges : List Edge) (num_edges : Nat) (p : List ℚ)
    (n : Nat) (alpha : ℚ) (score : List ℚ) (hlen : edges.length = num_edges) (d : Nat)
    (hd : d < n) (hnot : ∀ e ∈ edges, e.dst ≠ (d : Int)) :
    (update_step edges num_edges p n alpha score).getD d 0 = (1 - alpha) * p.getD d 0 := by
  rw [update_step_getD edges num_edges p n alpha score hlen d hd, filter_dst_eq_nil edges d hnot]
  simp

theorem pagerank_non_destination_aux (edges : List Edge) (num_edges : Nat)
    (personalization : List ℚ) (num_nodes : Nat) (alpha : ℚ) (max_iter : Int) (tol : ℚ)
    (hedges : edges.length = num_edges) (hmax : 1 ≤ max_iter) (d : Nat) (hd : d < num_nodes)
    (hnot : ∀ e ∈ edges, e.dst ≠ (d : Int)) :
    (pagerank edges num_edges personalization num_nodes alpha max_iter tol).getD d 0 =
      (1 - alpha) * (normalize_personalization personalization num_nodes).getD d 0 := by
  obtain ⟨K, -, hres, hpos, -, -⟩ :=
    pagerank_run_spec edges num_edges personalization num_nodes alpha max_iter tol
  have hK : 0 < K := hpos (by omega)
  obtain ⟨K', rfl⟩ : ∃ K', K = K' + 1 := ⟨K - 1, by omega⟩
  unfold pagerank
  rw [hres]
  show ((update_step _ num_edges _ num_nodes alpha)^[K' + 1] _).getD d 0 = _
  rw [Function.iterate_succ_apply']
  exact update_step_non_destination _ num_edges _ num_nodes alpha _
    ((normalized_edges_length edges num_edges).trans hedges) d hd
    (normalized_edges_ids (fun _ dst => dst ≠ (d : Int)) edges num_edges hnot)

/-- Claim C18: for an input with ids in `[0, num_nodes)` and
`max_iter ≥ 1`, a node `d` that is the `dst` of no edge has the returned
score `(1 - alpha) * p[d]`, with `p` the normalized personalization vector;
and the propagation loops leave `new_score` as it was at every index that
is the `dst` of no edge. -/
theorem pagerank_non_destination (edges : List Edge) (num_edges : Nat)
    (personalization : List ℚ) (num_nodes : Nat) (alpha : ℚ) (max_iter : Int) (tol : ℚ)
    (hedges : edges.length = num_edges) (_hp : personalization.length = num_nodes)
    (_hids : ∀ e ∈ edges, 0 ≤ e.src ∧ e.src < num_nodes ∧ 0 ≤ e.dst ∧ e.dst < num_nodes)
    (hmax : 1 ≤ max_iter) (d : Nat) (hd : d < num_nodes)
    (hnot : ∀ e ∈ edges, e.dst ≠ (d : Int)) :
    (pagerank edges num_edges personalization num_nodes alpha max_iter tol).getD d 0 =
        (1 - alpha) * (normalize_personalization personalization num_nodes).getD d 0 ∧
      ∀ (score new_score : List ℚ),
        (propagate edges num_edges score alpha new_score).getD d 0 = new_score.getD d 0 :=
  ⟨pagerank_non_destination_aux edges num_edges personalization num_nodes alpha max_iter tol
      hedges hmax d hd hnot,
    fun score new_score => propagate_frame edges num_edges score alpha new_score hedges d hnot⟩

theorem pagerank_non_destination_witness :
    (∀ e ∈ ([⟨0, 1, 1/2⟩, ⟨1, 2, 1/2⟩] : List Edge), e.dst ≠ ((0 : Nat) : Int)) ∧
      (pagerank [⟨0, 1, 1/2⟩, ⟨1, 2, 1/2⟩] 2 [1, 2, 3] 3 (17/20) 100 (1/1000000)).getD 0 0 =
        (1 - 17/20) * (normalize_personalization [1, 2, 3] 3).getD 0 0 :=
  ⟨by decide,
    (pagerank_non_destination [⟨0, 1, 1/2⟩, ⟨1, 2, 1/2⟩] 2 [1, 2, 3] 3 (17/20) 100 (1/1000000)
      rfl rfl (by decide) (by decide) 0 (by decide) (by decide)).1⟩

/-! ## What the personalization block computes -/

theorem largest_spec (p : List ℚ) (hp : p ≠ []) : largest p ∈ p ∧ ∀ x ∈ p, x ≤ largest p := by
  induction p with
  | nil => exact absurd rfl hp
  | cons x l ih =>
    cases l with
    | nil => simp [largest]
    | cons y l =>
      obtain ⟨h1, h2⟩ := ih (List.cons_ne_nil y l)
      simp only [largest]
      constructor
      · rcases max_cases x (largest (y :: l)) with ⟨h, -⟩ | ⟨h, -⟩
        · rw [h]; exact List.mem_cons_self _ _
        · rw [h]; exact List.mem_cons_of_mem _ h1
      · intro z hz
        rcases List.mem_cons.mp hz with h | h
        · rw [h]; exact le_max_left _ _
        · exact le_trans (h2 z h) (le_max_right _ _)

theorem smallest_spec (p : List ℚ) (hp : p ≠ []) : smallest p ∈ p ∧ ∀ x ∈ p, smallest p ≤ x := by
  induction p with
  | nil => exact absurd rfl hp
  | cons x l ih =>
    cases l with
    | nil => simp [smallest]
    | cons y l =>
      obtain ⟨h1, h2⟩ := ih (List.cons_ne_nil y l)
      simp only [smallest]
      constructor
      · rcases min_cases x (smallest (y :: l)) with ⟨h, -⟩ | ⟨h, -⟩
        · rw [h]; exact List.mem_cons_self _ _
        · rw [h]; exact List.mem_cons_of_mem _ h1
      · intro z hz
        rcases List.mem_cons.mp hz with h | h
        · rw [h]; exact min_le_left _ _
        · exact le_trans (min_le_right _ _) (h2 z h)

theorem foldl_max_eq (l : List ℚ) (hl : l ≠ []) (a : ℚ) :
    l.foldl max a = max a (largest l) := by
  induction l generalizing a with
  | nil => exact absurd rfl hl
  | cons x l ih =>
    cases l with
    | nil => simp [largest]
    | cons y l =>
      rw [List.foldl_cons, ih (List.cons_ne_nil y l)]
      simp only [largest]
      rw [max_assoc]

theorem foldl_min_eq (l : List ℚ) (hl : l ≠ []) (a : ℚ) :
    l.foldl min a = min a (smallest l) := by
  induction l generalizing a with
  | nil => exact absurd rfl hl
  | cons x l ih =>
    cases l with
    | nil => simp [smallest]
    | cons y l =>
      rw [List.foldl_cons, ih (List.cons_ne_nil y l)]
      simp only [smallest]
      rw [min_assoc]

theorem foldl_pair (f : ℚ → ℚ → ℚ) (g : ℚ → ℚ → ℚ) (l : List ℚ) (a b : ℚ) :
    l.foldl (fun (st : ℚ × ℚ) x => (f st.1 x, g st.2 x)) (a, b) = (l.foldl f a, l.foldl g b) := by
  induction l generalizing a b with
  | nil => rfl
  | cons x l ih => rw [List.foldl_cons, List.foldl_cons, List.foldl_cons, ih]

/-- The scan ends with `max_value = max (0, largest entry)` and
`min_value = min (1, smallest entry)`. -/
theorem max_min_scan_eq (p : List ℚ) (n : Nat) (hn : 0 < n) (hlen : p.length = n) :
    max_min_scan p n = (max 0 (largest p), min 1 (smallest p)) := by
  have hp : p ≠ [] := by
    intro h
    rw [h] at hlen
    simp at hlen
    omega
  unfold max_min_scan
  rw [← hlen]
  have hstep : (fun (st : ℚ × ℚ) (i : Nat) =>
      let max_value := if p.getD i 0 > st.1 then p.getD i 0 else st.1
      let min_value := if p.getD i 0 < st.2 then p.getD i 0 else st.2
      (max_value, min_value)) =
      (fun (st : ℚ × ℚ) (i : Nat) =>
        (fun (st : ℚ × ℚ) x => (max st.1 x, min st.2 x)) st (p.getD i 0)) := by
    funext st i
    simp only []
    congr 1
    · rcases max_cases st.1 (p.getD i 0) with ⟨h, h'⟩ | ⟨h, h'⟩
      · rw [h, if_neg (not_lt.mpr h')]
      · rw [h, if_pos h']
    · rcases min_cases st.2 (p.getD i 0) with ⟨h, h'⟩ | ⟨h, h'⟩
      · rw [h, if_neg (not_lt.mpr h')]
      · rw [h, if_pos h']
  rw [hstep, foldl_range_getD (fun (st : ℚ × ℚ) x => (max st.1 x, min st.2 x)) p 0 (0, 1),
    foldl_pair max min, foldl_max_eq p hp, foldl_min_eq p hp]

theorem foldl_set_range_eq_map {α : Type} (h : α → α) (d : α) (l : List α) :
    (List.range l.length).foldl (fun p i => p.set i (h (p.getD i d))) l = l.map h := by
  apply List.ext_getElem?
  intro j
  rw [foldl_set_range_getElem? (fun _ x => h x) d l.length l j, List.getElem?_map]
  split_ifs with hj
  · rfl
  · rw [List.getElem?_eq_none (not_lt.mp hj)]; rfl

/-- Claim C16: for a personalization vector of length `num_nodes > 0`, with
`hi = max (0, largest entry)` and `lo = min (1, smallest entry)`, the block
overwrites every entry with `1 / num_nodes` when `hi = lo` and with
`(v - lo) / (hi - lo)` otherwise. -/
theorem normalize_personalization_eq (personalization : List ℚ) (num_nodes : Nat)
    (hn : 0 < num_nodes) (hlen : personalization.length = num_nodes) :
    normalize_personalization personalization num_nodes =
      personalization.map (fun v =>
        if max 0 (largest personalization) = min 1 (smallest personalization) then
          1 / (num_nodes : ℚ)
        else
          (v - min 1 (smallest personalization)) /
            (max 0 (largest personalization) - min 1 (smallest personalization))) := by
  unfold normalize_personalization
  rw [max_min_scan_eq personalization num_nodes hn hlen]
  simp only []
  by_cases hc : max 0 (largest personalization) = min 1 (smallest personalization)
  · simp only [if_pos hc]
    rw [← hlen]
    exact foldl_set_range_eq_map (fun _ => 1 / ((personalization.length : Nat) : ℚ)) 0
      personalization
  · simp only [if_neg hc]
    rw [← hlen]
    exact foldl_set_range_eq_map
      (fun v => (v - min 1 (smallest personalization)) /
        (max 0 (largest personalization) - min 1 (smallest personalization))) 0 personalization

theorem normalize_personalization_eq_witness :
    0 < 5 ∧ main_personalization.length = 5 ∧
    normalize_personalization main_personalization 5 =
      main_personalization.map (fun v =>
        if max 0 (largest main_personalization) = min 1 (smallest main_personalization) then
          1 / ((5 : Nat) : ℚ)
        else
          (v - min 1 (smallest main_personalization)) /
            (max 0 (largest main_personalization) - min 1 (smallest main_personalization))) :=
  ⟨by decide, rfl, normalize_personalization_eq main_personalization 5 (by decide) rfl⟩

/-! ## What the scan computes on a sorted array -/

/-- The division of an edge's weight. -/
theorem divide_run_getElem? (es : List Edge) (s : ℚ) (a b j : Nat) :
    (divide_run es s a b)[j]? =
      if a ≤ j ∧ j < a + (b - a) then
        (es[j]?).map (fun e => { e with weight := e.weight / s })
      else es[j]? := by
  unfold divide_run
  exact foldl_set_range'_getElem? (fun _ e => { e with weight := e.weight / s }) default
    a (b - a) es j

theorem take_succ_weight_sum (edges : List Edge) (m : Nat) (hm : m < edges.length) :
    ((edges.take (m + 1)).map Edge.weight).sum =
      ((edges.take m).map Edge.weight).sum + (edges.getD m default).weight := by
  rw [List.take_succ, List.getElem?_eq_getElem hm, List.getD_eq_getElem edges default hm]
  simp only [Option.toList_some, List.map_append, List.map_cons, List.map_nil, List.sum_append,
    List.sum_cons, List.sum_nil, add_zero]

/-- The state of the `i_end` loop after `i_end = 1, ..., m`, when the
entries `0, ..., r - 1` have the source `c` and the later ones have not:
before `r` the weights are being summed, from `r` on every entry below `m`
has been divided by the sum of the first `r` weights. -/
theorem scan_fold_state (edges : List Edge) (c : Int) (r : Nat) (hr1 : 1 ≤ r)
    (hrn : r ≤ edges.length)
    (H1 : ∀ k, k < r → (edges.getD k default).src = c)
    (H2 : ∀ k, r ≤ k → k < edges.length → (edges.getD k default).src ≠ c) :
    ∀ m, m ≤ edges.length →
      (m < r →
        ((List.range' 1 m).foldl (scan_step edges.length c)
            ⟨0, (edges.getD 0 default).weight, edges⟩).i_start = 0 ∧
        ((List.range' 1 m).foldl (scan_step edges.length c)
            ⟨0, (edges.getD 0 default).weight, edges⟩).sum_weight =
          ((edges.take (m + 1)).map Edge.weight).sum ∧
        ((List.range' 1 m).foldl (scan_step edges.length c)
            ⟨0, (edges.getD 0 default).weight, edges⟩).edges = edges) ∧
      (r ≤ m →
        ((List.range' 1 m).foldl (scan_step edges.length c)
            ⟨0, (edges.getD 0 default).weight, edges⟩).i_start = m ∧
        ((List.range' 1 m).foldl (scan_step edges.length c)
            ⟨0, (edges.getD 0 default).weight, edges⟩).sum_weight =
          ((edges.take r).map Edge.weight).sum ∧
        ∀ j, ((List.range' 1 m).foldl (scan_step edges.length c)
            ⟨0, (edges.getD 0 default).weight, edges⟩).edges[j]? =
          if j < m then
            (edges[j]?).map (fun e =>
              { e with weight := e.weight / ((edges.take r).map Edge.weight).sum })
          else edges[j]?) := by
  intro m
  induction m with
  | zero =>
    intro _
    refine ⟨fun _ => ⟨rfl, ?_, rfl⟩, fun h => absurd h (by omega)⟩
    simp only [List.range'_zero, List.foldl_nil]
    rw [take_succ_weight_sum edges 0 (by omega)]
    simp
  | succ m ih =>
    intro hm
    obtain ⟨ih1, ih2⟩ := ih (by omega)
    rw [List.range'_concat, List.foldl_append]
    simp only [List.foldl_cons, List.foldl_nil, one_mul]
    generalize (List.range' 1 m).foldl (scan_step edges.length c)
      ⟨0, (edges.getD 0 default).weight, edges⟩ = st at ih1 ih2
    obtain ⟨i0, sw, es⟩ := st
    simp only at ih1 ih2
    by_cases hmr : m < r
    · obtain ⟨hi, hs, he⟩ := ih1 hmr
      subst hi he
      by_cases hlt : m + 1 < r
      · -- the weight of entry `m + 1` is added
        have hcond : ¬ (1 + m = es.length ∨ (es.getD (1 + m) default).src ≠ c) := by
          rw [not_or, not_not]
          exact ⟨by omega, H1 (1 + m) (by omega)⟩
        have hstep : scan_step es.length c ⟨0, sw, es⟩ (1 + m) =
            ⟨0, sw + (es.getD (1 + m) default).weight, es⟩ := by
          simp only [scan_step, if_neg hcond]
        rw [hstep]
        refine ⟨fun _ => ?_, fun h => absurd h (by omega)⟩
        refine ⟨rfl, ?_, rfl⟩
        show sw + (es.getD (1 + m) default).weight = _
        rw [take_succ_weight_sum es (m + 1) (by omega), hs, add_comm 1 m]
      · -- the first run is closed at `i_end = r`
        have hrm : r = m + 1 := by omega
        have hcond : 1 + m = es.length ∨ (es.getD (1 + m) default).src ≠ c := by
          by_cases hn : 1 + m = es.length
          · exact Or.inl hn
          · exact Or.inr (H2 (1 + m) (by omega) (by omega))
        have hstep : scan_step es.length c ⟨0, sw, es⟩ (1 + m) =
            ⟨1 + m, sw, divide_run es sw 0 (1 + m)⟩ := by
          simp only [scan_step, if_pos hcond]
        rw [hstep]
        refine ⟨fun h => absurd h (by omega), fun _ => ?_⟩
        refine ⟨by show 1 + m = m + 1; omega, by show sw = _; rw [hs, hrm], fun j => ?_⟩
        show (divide_run es sw 0 (1 + m))[j]? = _
        rw [divide_run_getElem?, hs, hrm]
        have hiff : (0 ≤ j ∧ j < 0 + (1 + m - 0)) ↔ j < m + 1 := by omega
        simp only [hiff]
    · obtain ⟨hi, hs, he⟩ := ih2 (by omega)
      subst hi
      -- every later entry is a run of its own, divided by the same sum
      have hsrc : es.getD (1 + i0) default = edges.getD (1 + i0) default := by
        rw [List.getD_eq_getElem?_getD, List.getD_eq_getElem?_getD, he, if_neg (by omega)]
      have hcond : 1 + i0 = edges.length ∨ (es.getD (1 + i0) default).src ≠ c := by
        by_cases hn : 1 + i0 = edges.length
        · exact Or.inl hn
        · rw [hsrc]
          exact Or.inr (H2 (1 + i0) (by omega) (by omega))
      have hstep : scan_step edges.length c ⟨i0, sw, es⟩ (1 + i0) =
          ⟨1 + i0, sw, divide_run es sw i0 (1 + i0)⟩ := by
        simp only [scan_step, if_pos hcond]
      rw [hstep]
      refine ⟨fun h => absurd h (by omega), fun _ => ?_⟩
      refine ⟨by show 1 + i0 = i0 + 1; omega, hs, fun j => ?_⟩
      show (divide_run es sw i0 (1 + i0))[j]? = _
      rw [divide_run_getElem?, hs]
      by_cases hj : i0 ≤ j ∧ j < i0 + (1 + i0 - i0)
      · have hje : j = i0 := by omega
        subst hje
        rw [if_pos hj, he, if_neg (by omega), if_pos (by omega)]
      · rw [if_neg hj, he]
        by_cases hjm : j < i0
        · rw [if_pos hjm, if_pos (by omega)]
        · rw [if_neg hjm, if_neg (by omega)]


/-- In an array sorted by `src` whose sources are at least `c`, the edges
of source `c` are a prefix. -/
theorem sorted_run (l : List Edge) (c : Int)
    (hs : l.Pairwise (fun a b => a.src ≤ b.src)) (hc : ∀ e ∈ l, c ≤ e.src) :
    ∃ r, r ≤ l.length ∧ (∀ k, k < r → (l.getD k default).src = c) ∧
      (∀ k, r ≤ k → k < l.length → (l.getD k default).src ≠ c) ∧
      l.take r = l.filter (fun e => decide (e.src = c)) := by
  induction l with
  | nil => exact ⟨0, le_refl _, fun k hk => absurd hk (by omega), fun k _ hk => absurd hk (by simp), rfl⟩
  | cons e l ih =>
    rw [List.pairwise_cons] at hs
    by_cases he : e.src = c
    · obtain ⟨r, hr, h1, h2, h3⟩ := ih hs.2 (fun a ha => hc a (List.mem_cons_of_mem _ ha))
      refine ⟨r + 1, by simp only [List.length_cons]; omega, ?_, ?_, ?_⟩
      · intro k hk
        cases k with
        | zero => exact he
        | succ k => exact h1 k (by omega)
      · intro k hk1 hk2
        cases k with
        | zero => omega
        | succ k =>
          simp only [List.length_cons] at hk2
          exact h2 k (by omega) (by omega)
      · rw [List.take_succ_cons, h3, List.filter_cons, if_pos (by simpa using he)]
    · have hall : ∀ a ∈ e :: l, a.src ≠ c := by
        intro a ha
        have hlt : c < e.src := lt_of_le_of_ne (hc e (List.mem_cons_self _ _)) (Ne.symm he)
        rcases List.mem_cons.mp ha with h | h
        · rw [h]; exact he
        · have := hs.1 a h
          omega
      refine ⟨0, Nat.zero_le _, fun k hk => absurd hk (by omega), ?_, ?_⟩
      · intro k _ hk
        rw [List.getD_eq_getElem _ default hk]
        exact hall _ (List.getElem_mem hk)
      · rw [List.take_zero, eq_comm, List.filter_eq_nil_iff]
        intro a ha
        simpa using hall a ha

theorem getD_zero_eq_head (l : List Edge) (h : l ≠ []) : l.getD 0 default = l.head h := by
  cases l with
  | nil => exact absurd rfl h
  | cons e l => rfl

theorem head_src_le (l : List Edge) (h : l ≠ [])
    (hs : l.Pairwise (fun a b => a.src ≤ b.src)) : ∀ e ∈ l, (l.head h).src ≤ e.src := by
  cases l with
  | nil => exact absurd rfl h
  | cons e0 l =>
    rw [List.pairwise_cons] at hs
    intro e he
    rcases List.mem_cons.mp he with h1 | h1
    · rw [h1]; exact le_refl _
    · exact hs.1 e h1

/-- On a non-empty array sorted by `src` the normalization divides every
weight by the total weight of the first edge's source and changes nothing
else. -/
theorem normalize_edges_sorted_eq (edges : List Edge) (hne : edges ≠ [])
    (hsorted : edges.Pairwise (fun a b => a.src ≤ b.src)) :
    normalize_edges edges edges.length =
      edges.map (fun e =>
        { e with weight := e.weight / out_weight edges (edges.head hne).src }) := by
  obtain ⟨r, hrn, H1, H2, htake⟩ :=
    sorted_run edges (edges.head hne).src hsorted (head_src_le edges hne hsorted)
  have hpos : 0 < edges.length := List.length_pos.mpr hne
  have hr1 : 1 ≤ r := by
    by_contra hcon
    have hr0 : r = 0 := by omega
    exact H2 0 (by omega) hpos (by rw [getD_zero_eq_head edges hne])
  have hS : out_weight edges (edges.head hne).src = ((edges.take r).map Edge.weight).sum := by
    unfold out_weight
    rw [htake]
  obtain ⟨-, hfin⟩ := scan_fold_state edges (edges.head hne).src r hr1 hrn H1 H2
    edges.length (le_refl _)
  obtain ⟨hi, -, he⟩ := hfin hrn
  unfold normalize_edges
  rw [scan_outer, if_pos hpos]
  simp only []
  have hinner : scan_inner edges.length (edges.getD 0 default).src
      ⟨0, (edges.getD 0 default).weight, edges⟩ =
      (List.range' 1 edges.length).foldl (scan_step edges.length (edges.head hne).src)
        ⟨0, (edges.getD 0 default).weight, edges⟩ := by
    rw [getD_zero_eq_head edges hne]
    unfold scan_inner
    simp only [Nat.zero_add, Nat.sub_zero]
  rw [hinner, scan_outer, if_neg (by rw [hi]; omega)]
  apply List.ext_getElem?
  intro j
  rw [he j, List.getElem?_map, hS]
  split_ifs with hj
  · rfl
  · rw [List.getElem?_eq_none (not_lt.mp hj)]; rfl

/-- Claim C15: for a non-empty edge array sorted by non-decreasing `src`,
with `S` the sum of the original weights of the edges that share the `src`
of the first edge and `S` non-zero, the scan leaves every edge with its
original weight divided by `S`, and leaves `src`, `dst` and the order of
the edges as they were. -/
theorem normalize_edges_sorted (edges : List Edge) (hne : edges ≠ [])
    (hsorted : edges.Pairwise (fun a b => a.src ≤ b.src))
    (_hS : out_weight edges (edges.head hne).src ≠ 0) :
    normalize_edges edges edges.length =
      edges.map (fun e =>
        { e with weight := e.weight / out_weight edges (edges.head hne).src }) :=
  normalize_edges_sorted_eq edges hne hsorted

theorem normalize_edges_sorted_witness :
    out_weight main_edges_sorted (main_edges_sorted.head (List.cons_ne_nil _ _)).src ≠ 0 ∧
    normalize_edges main_edges_sorted main_edges_sorted.length =
      main_edges_sorted.map (fun e =>
        { e with weight := e.weight /
            out_weight main_edges_sorted (main_edges_sorted.head (List.cons_ne_nil _ _)).src }) :=
  ⟨by simp [out_weight, main_edges_sorted, List.filter],
    normalize_edges_sorted main_edges_sorted (List.cons_ne_nil _ _) (by decide)
      (by simp [out_weight, main_edges_sorted, List.filter])⟩

/-! ## The successive differences on a two-node cycle -/

theorem two_cycle_edges_normalized :
    normalize_edges (qsort [⟨0, 1, 1/4⟩, ⟨1, 0, 1⟩] 2 compare_edges) 2 =
      [⟨0, 1, 1⟩, ⟨1, 0, 4⟩] := by
  have hq : qsort [⟨0, 1, 1/4⟩, ⟨1, 0, 1⟩] 2 compare_edges = [⟨0, 1, 1/4⟩, ⟨1, 0, 1⟩] := by
    simp [qsort, compare_edges, to_int, List.insertionSort, List.orderedInsert]
    decide
  rw [hq, normalize_edges, scan_outer]
  simp [scan_inner, scan_step, divide_run, List.range']
  rw [scan_outer]
  norm_num

theorem one_zero_normalized : normalize_personalization [1, 0] 2 = [1, 0] := by
  simp [normalize_personalization, max_min_scan, List.range_succ]

theorem two_cycle_step (a b : ℚ) :
    update_step [⟨0, 1, 1⟩, ⟨1, 0, 4⟩] 2 [1, 0] 2 (1/2) [a, b] = [1/2 + 2 * b, a / 2] := by
  rw [update_step, propagate_eq_original]
  simp [propagate_original, restart_term, add_at, rd, List.range_succ]
  constructor <;> ring

/-- Claim C11, evaluated on the two-node cycle `0 → 1` (weight `1/4`),
`1 → 0` (weight `1`) with personalization `[1, 0]` and `alpha = 1/2`: the
iterates are `[1, 0]`, `[1/2, 1/2]`, `[3/2, 1/4]`, so that `diff_1 = 1` and
`diff_2 = 5/4`; the claim requires `diff_2 ≤ diff_1`. -/
theorem diff_seq_two_cycle :
    diff_seq [⟨0, 1, 1/4⟩, ⟨1, 0, 1⟩] 2 [1, 0] 2 (1/2) 1 = 1 ∧
      diff_seq [⟨0, 1, 1/4⟩, ⟨1, 0, 1⟩] 2 [1, 0] 2 (1/2) 2 = 5/4 := by
  have h0 : score_seq [⟨0, 1, 1/4⟩, ⟨1, 0, 1⟩] 2 [1, 0] 2 (1/2) 0 = [1, 0] := by
    unfold score_seq
    rw [Function.iterate_zero, id, one_zero_normalized]
  have h1 : score_seq [⟨0, 1, 1/4⟩, ⟨1, 0, 1⟩] 2 [1, 0] 2 (1/2) 1 = [1/2, 1/2] := by
    unfold score_seq
    rw [Function.iterate_one, two_cycle_edges_normalized, one_zero_normalized, two_cycle_step]
    norm_num
  have h2 : score_seq [⟨0, 1, 1/4⟩, ⟨1, 0, 1⟩] 2 [1, 0] 2 (1/2) 2 = [3/2, 1/4] := by
    unfold score_seq
    rw [Function.iterate_succ_apply, Function.iterate_one, two_cycle_edges_normalized,
      one_zero_normalized, two_cycle_step, two_cycle_step]
    norm_num
  constructor
  · unfold diff_seq
    rw [h1, h0]
    simp [l1_diff, List.range_succ]
    norm_num [abs_of_nonneg, abs_of_nonpos]
  · unfold diff_seq
    rw [h2, h1]
    simp [l1_diff, List.range_succ]
    norm_num [abs_of_nonneg, abs_of_nonpos]

/-! ## Sums over the edges -/

theorem foldl_add_eq_sum {ι : Type} (g : ι → ℚ) (l : List ι) (init : ℚ) :
    l.foldl (fun acc i => acc + g i) init = init + (l.map g).sum := by
  induction l generalizing init with
  | nil => simp
  | cons a l ih => rw [List.foldl_cons, ih, List.map_cons, List.sum_cons, add_assoc]

theorem l1_diff_eq_sum (a b : List ℚ) (n : Nat) :
    l1_diff a b n = ((List.range n).map (fun i => |a.getD i 0 - b.getD i 0|)).sum := by
  unfold l1_diff
  rw [foldl_add_eq_sum (fun i => |a.getD i 0 - b.getD i 0|), zero_add]

theorem abs_sum_map_le {ι : Type} (f : ι → ℚ) (l : List ι) :
    |(l.map f).sum| ≤ (l.map (fun e => |f e|)).sum := by
  induction l with
  | nil => simp
  | cons a l ih =>
    rw [List.map_cons, List.sum_cons, List.map_cons, List.sum_cons]
    exact le_trans (abs_add _ _) (add_le_add_left ih _)

theorem sum_map_sub_eq {ι : Type} (f g : ι → ℚ) (l : List ι) :
    (l.map f).sum - (l.map g).sum = (l.map (fun e => f e - g e)).sum := by
  induction l with
  | nil => simp
  | cons a l ih =>
    simp only [List.map_cons, List.sum_cons]
    rw [← ih]
    ring

theorem sum_filter_eq_sum_ite (key : Edge → Int) (c : Int) (g : Edge → ℚ) (l : List Edge) :
    ((l.filter (fun e => decide (key e = c))).map g).sum =
      (l.map (fun e => if key e = c then g e else 0)).sum := by
  induction l with
  | nil => simp
  | cons a l ih =>
    rw [List.filter_cons, List.map_cons, List.sum_cons, ← ih]
    by_cases h : key a = c
    · simp [h]
    · simp [h]

theorem sum_range_swap (F : Nat → Edge → ℚ) (n : Nat) (es : List Edge) :
    ((List.range n).map (fun i => (es.map (fun e => F i e)).sum)).sum =
      (es.map (fun e => ((List.range n).map (fun i => F i e)).sum)).sum := by
  induction es with
  | nil => simp
  | cons a l ih =>
    simp only [List.map_cons, List.sum_cons]
    rw [List.sum_map_add, ih]

theorem sum_range_ite (k : Int) (v : ℚ) (n : Nat) (h0 : 0 ≤ k) (hn : k < n) :
    ((List.range n).map (fun (i : Nat) => if k = (i : Int) then v else 0)).sum = v := by
  have key : ∀ m : Nat, ((List.range m).map (fun (i : Nat) => if k = (i : Int) then v else 0)).sum =
      if k < (m : Int) then v else 0 := by
    intro m
    induction m with
    | zero =>
      have : ¬ k < ((0 : Nat) : Int) := by omega
      rw [if_neg this]
      rfl
    | succ m ih =>
      rw [List.sum_range_succ, ih]
      by_cases h1 : k < (m : Int)
      · have h2 : ¬ k = (m : Int) := by omega
        have h3 : k < ((m + 1 : Nat) : Int) := by omega
        rw [if_pos h1, if_neg h2, if_pos h3, add_zero]
      · by_cases h2 : k = (m : Int)
        · have h3 : k < ((m + 1 : Nat) : Int) := by omega
          rw [if_neg h1, if_pos h2, if_pos h3, zero_add]
        · have h3 : ¬ k < ((m + 1 : Nat) : Int) := by omega
          rw [if_neg h1, if_neg h2, if_neg h3, add_zero]
  rw [key n, if_pos hn]

/-- Grouping the edges by a key with values in `[0, n)` loses no edge and
counts none twice. -/
theorem sum_group_by (key : Edge → Int) (g : Edge → ℚ) (n : Nat) (es : List Edge)
    (h : ∀ e ∈ es, 0 ≤ key e ∧ key e < n) :
    ((List.range n).map (fun (i : Nat) =>
        ((es.filter (fun e => decide (key e = (i : Int)))).map g).sum)).sum =
      (es.map g).sum := by
  have h1 : (List.range n).map (fun (i : Nat) =>
        ((es.filter (fun e => decide (key e = (i : Int)))).map g).sum) =
      (List.range n).map (fun (i : Nat) =>
        (es.map (fun e => if key e = (i : Int) then g e else 0)).sum) :=
    List.map_congr_left (fun i _ => sum_filter_eq_sum_ite key (i : Int) g es)
  rw [h1, sum_range_swap (fun (i : Nat) e => if key e = (i : Int) then g e else 0)]
  congr 1
  exact List.map_congr_left (fun e he => sum_range_ite (key e) (g e) n (h e he).1 (h e he).2)

theorem rd_natCast (v : List ℚ) (i : Nat) : rd v (i : Int) = v.getD i 0 := by
  unfold rd
  rw [if_pos (by omega), Int.toNat_ofNat]

theorem out_weight_le_one (edges : List Edge) (hsub : ∀ e ∈ edges, out_weight edges e.src ≤ 1)
    (s : Int) : out_weight edges s ≤ 1 := by
  by_cases h : ∃ e ∈ edges, e.src = s
  · obtain ⟨e, he, hs⟩ := h
    rw [← hs]
    exact hsub e he
  · have : edges.filter (fun e => decide (e.src = s)) = [] := by
      rw [List.filter_eq_nil_iff]
      intro e he
      simpa using fun hs => h ⟨e, he, hs⟩
    unfold out_weight
    rw [this]
    simp

/-! ## The update step as a contraction -/

/-- The entry-wise difference of two update steps is bounded by the
propagated differences of the scores. -/
theorem update_step_diff_le (edges : List Edge) (num_edges : Nat) (p : List ℚ) (n : Nat)
    (alpha : ℚ) (x y : List ℚ) (hlen : edges.length = num_edges)
    (hw : ∀ e ∈ edges, 0 ≤ e.weight) (ha0 : 0 ≤ alpha) (i : Nat) (hi : i < n) :
    |(update_step edges num_edges p n alpha x).getD i 0 -
        (update_step edges num_edges p n alpha y).getD i 0| ≤
      ((edges.filter (fun e => decide (e.dst = (i : Int)))).map
        (fun e => alpha * |rd x e.src - rd y e.src| * e.weight)).sum := by
  rw [update_step_getD edges num_edges p n alpha x hlen i hi,
    update_step_getD edges num_edges p n alpha y hlen i hi, add_sub_add_left_eq_sub,
    sum_map_sub_eq]
  refine le_trans (abs_sum_map_le _ _) (le_of_eq ?_)
  refine congrArg List.sum (List.map_congr_left (fun e he => ?_))
  have hwe : 0 ≤ e.weight := hw e (List.mem_of_mem_filter he)
  have : alpha * rd x e.src * e.weight - alpha * rd y e.src * e.weight =
      alpha * (rd x e.src - rd y e.src) * e.weight := by ring
  rw [this, abs_mul, abs_mul, abs_of_nonneg ha0, abs_of_nonneg hwe]

theorem sum_by_src (edges : List Edge) (alpha : ℚ) (d : Int → ℚ) (s : Int) :
    ((edges.filter (fun e => decide (e.src = s))).map
        (fun e => alpha * |d e.src| * e.weight)).sum =
      alpha * |d s| * out_weight edges s := by
  unfold out_weight
  rw [← List.sum_map_mul_left]
  refine congrArg List.sum (List.map_congr_left (fun e he => ?_))
  have hs : e.src = s := by simpa using (List.mem_filter.mp he).2
  rw [hs]

theorem update_step_contraction_aux (edges : List Edge) (num_edges : Nat) (p : List ℚ) (n : Nat)
    (alpha : ℚ) (x y : List ℚ) (hlen : edges.length = num_edges)
    (hids : ∀ e ∈ edges, 0 ≤ e.src ∧ e.src < n ∧ 0 ≤ e.dst ∧ e.dst < n)
    (hw : ∀ e ∈ edges, 0 ≤ e.weight) (hsub : ∀ e ∈ edges, out_weight edges e.src ≤ 1)
    (ha0 : 0 ≤ alpha) :
    l1_diff (update_step edges num_edges p n alpha x) (update_step edges num_edges p n alpha y) n
      ≤ alpha * l1_diff x y n := by
  rw [l1_diff_eq_sum, l1_diff_eq_sum]
  calc ((List.range n).map (fun i =>
          |(update_step edges num_edges p n alpha x).getD i 0 -
            (update_step edges num_edges p n alpha y).getD i 0|)).sum
      ≤ ((List.range n).map (fun (i : Nat) =>
          ((edges.filter (fun e => decide (e.dst = (i : Int)))).map
            (fun e => alpha * |rd x e.src - rd y e.src| * e.weight)).sum)).sum :=
        List.sum_le_sum (fun i hi =>
          update_step_diff_le edges num_edges p n alpha x y hlen hw ha0 i
            (List.mem_range.mp hi))
    _ = (edges.map (fun e => alpha * |rd x e.src - rd y e.src| * e.weight)).sum :=
        sum_group_by Edge.dst _ n edges (fun e he => ⟨(hids e he).2.2.1, (hids e he).2.2.2⟩)
    _ = ((List.range n).map (fun (s : Nat) =>
          ((edges.filter (fun e => decide (e.src = (s : Int)))).map
            (fun e => alpha * |rd x e.src - rd y e.src| * e.weight)).sum)).sum :=
        (sum_group_by Edge.src _ n edges (fun e he => ⟨(hids e he).1, (hids e he).2.1⟩)).symm
    _ = ((List.range n).map (fun (s : Nat) =>
          alpha * |rd x (s : Int) - rd y (s : Int)| * out_weight edges (s : Int))).sum :=
        congrArg List.sum (List.map_congr_left (fun s _ =>
          sum_by_src edges alpha (fun k => rd x k - rd y k) (s : Int)))
    _ ≤ ((List.range n).map (fun (s : Nat) => alpha * |x.getD s 0 - y.getD s 0|)).sum :=
        List.sum_le_sum (fun s _ => by
          rw [rd_natCast, rd_natCast]
          exact mul_le_of_le_one_right (mul_nonneg ha0 (abs_nonneg _))
            (out_weight_le_one edges hsub _))
    _ = alpha * ((List.range n).map (fun i => |x.getD i 0 - y.getD i 0|)).sum :=
        List.sum_map_mul_left _ _ _


/-- Claim C17: for an edge array with ids in `[0, num_nodes)` whose weights
are non-negative and sum to at most `1` for every source, and `alpha` in
`[0, 1)`, the update step satisfies
`‖step x - step y‖₁ ≤ alpha * ‖x - y‖₁` for all score vectors `x` and `y`;
hence the successive differences of its iterates from any score vector obey
`diff_(k+1) ≤ alpha * diff_k`. -/
theorem update_step_contraction (edges : List Edge) (num_edges : Nat) (p : List ℚ)
    (num_nodes : Nat) (alpha : ℚ) (hedges : edges.length = num_edges)
    (hids : ∀ e ∈ edges, 0 ≤ e.src ∧ e.src < num_nodes ∧ 0 ≤ e.dst ∧ e.dst < num_nodes)
    (hw : ∀ e ∈ edges, 0 ≤ e.weight) (hsub : ∀ e ∈ edges, out_weight edges e.src ≤ 1)
    (ha0 : 0 ≤ alpha) (_ha1 : alpha < 1) :
    (∀ x y : List ℚ, x.length = num_nodes → y.length = num_nodes →
      l1_diff (update_step edges num_edges p num_nodes alpha x)
          (update_step edges num_edges p num_nodes alpha y) num_nodes ≤
        alpha * l1_diff x y num_nodes) ∧
      ∀ (x0 : List ℚ) (k : Nat), x0.length = num_nodes →
        l1_diff ((update_step edges num_edges p num_nodes alpha)^[k + 1 + 1] x0)
            ((update_step edges num_edges p num_nodes alpha)^[k + 1] x0) num_nodes ≤
          alpha * l1_diff ((update_step edges num_edges p num_nodes alpha)^[k + 1] x0)
            ((update_step edges num_edges p num_nodes alpha)^[k] x0) num_nodes := by
  have hstep : ∀ x y : List ℚ,
      l1_diff (update_step edges num_edges p num_nodes alpha x)
          (update_step edges num_edges p num_nodes alpha y) num_nodes ≤
        alpha * l1_diff x y num_nodes :=
    fun x y => update_step_contraction_aux edges num_edges p num_nodes alpha x y hedges hids hw
      hsub ha0
  refine ⟨fun x y _ _ => hstep x y, fun x0 k _ => ?_⟩
  generalize hf : update_step edges num_edges p num_nodes alpha = f at hstep
  rw [Function.iterate_succ_apply' f (k + 1), Function.iterate_succ_apply' f k]
  exact hstep _ _

theorem update_step_contraction_witness :
    l1_diff (update_step [⟨0, 1, 1/2⟩, ⟨1, 0, 1⟩] 2 [1, 0] 2 (1/2) [1, 0])
        (update_step [⟨0, 1, 1/2⟩, ⟨1, 0, 1⟩] 2 [1, 0] 2 (1/2) [0, 1]) 2 ≤
      1/2 * l1_diff [1, 0] [0, 1] 2 :=
  (update_step_contraction [⟨0, 1, 1/2⟩, ⟨1, 0, 1⟩] 2 [1, 0] 2 (1/2) rfl (by decide)
    (by simp) (by simp [out_weight, List.filter]; norm_num)
    (by norm_num) (by norm_num)).1 [1, 0] [0, 1] rfl rfl

/-! ## The checked scan -/

theorem scan_outer_checked_exit (dv : ℚ → ℚ → Option ℚ) (num_edges i_start : Nat)
    (edges : List Edge) (h : ¬ i_start < num_edges) :
    scan_outer_checked dv num_edges i_start edges = some edges := by
  rw [scan_outer_checked.eq_1, if_neg h]

theorem scan_outer_checked_step (dv : ℚ → ℚ → Option ℚ) (num_edges i_start : Nat)
    (edges : List Edge) (e : Edge) (st : ScanState) (hlt : i_start < num_edges)
    (he : edges[i_start]? = some e)
    (hin : scan_inner_checked dv num_edges e.src ⟨i_start, e.weight, edges⟩ = some st) :
    scan_outer_checked dv num_edges i_start edges =
      scan_outer_checked dv num_edges (st.i_start + 1) st.edges := by
  rw [scan_outer_checked.eq_1, if_pos hlt]
  simp only [he]
  split
  · rename_i h
    rw [hin] at h
    exact Option.noConfusion h
  · rename_i st' h
    rw [hin] at h
    cases h
    rfl

theorem scan_outer_checked_fail (dv : ℚ → ℚ → Option ℚ) (num_edges i_start : Nat)
    (edges : List Edge) (e : Edge) (hlt : i_start < num_edges)
    (he : edges[i_start]? = some e)
    (hin : scan_inner_checked dv num_edges e.src ⟨i_start, e.weight, edges⟩ = none) :
    scan_outer_checked dv num_edges i_start edges = none := by
  rw [scan_outer_checked.eq_1, if_pos hlt]
  simp only [he]
  split
  · rfl
  · rename_i st' h
    rw [hin] at h
    exact Option.noConfusion h


theorem foldlM_eq_some_foldl {σ α : Type} (fc : σ → α → Option σ) (f : σ → α → σ)
    (Inv : σ → Prop) (P : α → Prop)
    (hstep : ∀ s a, Inv s → P a → fc s a = some (f s a) ∧ Inv (f s a))
    (l : List α) (hP : ∀ a ∈ l, P a) (s0 : σ) (h0 : Inv s0) :
    l.foldlM fc s0 = some (l.foldl f s0) ∧ Inv (l.foldl f s0) := by
  induction l generalizing s0 with
  | nil => exact ⟨rfl, h0⟩
  | cons a l ih =>
    obtain ⟨h1, h2⟩ := hstep s0 a h0 (hP a (List.mem_cons_self _ _))
    rw [List.foldlM_cons, h1, List.foldl_cons]
    exact ih (fun b hb => hP b (List.mem_cons_of_mem _ hb)) _ h2

theorem getElem?_eq_some_getD {α : Type} (l : List α) (i : Nat) (d : α) (h : i < l.length) :
    l[i]? = some (l.getD i d) := by
  rw [List.getElem?_eq_getElem h, List.getD_eq_getElem l d h]

theorem divide_run_checked_eq (dv : ℚ → ℚ → Option ℚ) (es : List Edge) (s : ℚ) (a b : Nat)
    (hb : b ≤ es.length) (hdv : a < b → ∀ w, dv w s = some (w / s)) :
    divide_run_checked dv es s a b = some (divide_run es s a b) := by
  unfold divide_run_checked divide_run
  refine (foldlM_eq_some_foldl _ _ (fun es' : List Edge => es'.length = es.length)
    (fun i => a ≤ i ∧ i < b) ?_ _ ?_ es rfl).1
  · intro es' i hlen hi
    have hlt : i < es'.length := by omega
    simp only [getElem?_eq_some_getD es' i default hlt, hdv (by omega), List.length_set]
    exact ⟨trivial, hlen⟩
  · intro i hi
    rw [List.mem_range'_1] at hi
    omega

theorem scan_step_checked_eq (dv : ℚ → ℚ → Option ℚ) (num_edges : Nat) (now_src : Int)
    (st : ScanState) (i_end : Nat) (hlen : st.edges.length = num_edges)
    (hi : i_end ≤ num_edges)
    (hdv : (i_end = num_edges ∨ (st.edges.getD i_end default).src ≠ now_src) →
      ∀ w, dv w st.sum_weight = some (w / st.sum_weight)) :
    scan_step_checked dv num_edges now_src st i_end =
      some (scan_step num_edges now_src st i_end) := by
  unfold scan_step_checked scan_step
  by_cases h1 : i_end = num_edges
  · rw [if_pos h1, if_pos (Or.inl h1),
      divide_run_checked_eq dv st.edges st.sum_weight st.i_start i_end (by omega)
        (fun _ => hdv (Or.inl h1))]
  · have hlt : i_end < st.edges.length := by omega
    rw [if_neg h1]
    simp only [getElem?_eq_some_getD st.edges i_end default hlt]
    by_cases h2 : (st.edges.getD i_end default).src ≠ now_src
    · rw [if_pos h2, if_pos (Or.inr h2),
        divide_run_checked_eq dv st.edges st.sum_weight st.i_start i_end (by omega)
          (fun _ => hdv (Or.inr h2))]
    · rw [if_neg h2, if_neg (by rw [not_or]; exact ⟨h1, h2⟩)]

theorem scan_inner_checked_eq (dv : ℚ → ℚ → Option ℚ) (hdv : ∀ w s, dv w s = some (w / s))
    (num_edges : Nat) (now_src : Int) (st : ScanState) (hlen : st.edges.length = num_edges) :
    scan_inner_checked dv num_edges now_src st = some (scan_inner num_edges now_src st) := by
  unfold scan_inner_checked scan_inner
  refine (foldlM_eq_some_foldl _ _ (fun s : ScanState => s.edges.length = num_edges)
    (fun i => i ≤ num_edges) ?_ _ ?_ st hlen).1
  · intro s i hs hi
    exact ⟨scan_step_checked_eq dv num_edges now_src s i hs hi (fun _ w => hdv w _),
      (scan_step_length num_edges now_src s i).trans hs⟩
  · intro i hi
    rw [List.mem_range'_1] at hi
    omega

theorem scan_outer_checked_eq (dv : ℚ → ℚ → Option ℚ) (hdv : ∀ w s, dv w s = some (w / s))
    (num_edges : Nat) (i_start : Nat) (edges : List Edge) (hlen : edges.length = num_edges) :
    scan_outer_checked dv num_edges i_start edges = some (scan_outer num_edges i_start edges) := by
  induction i_start, edges using scan_outer.induct num_edges with
  | case1 i_start edges hlt now_src sum_weight st ih =>
    rw [scan_outer, if_pos hlt,
      scan_outer_checked_step dv num_edges i_start edges (edges.getD i_start default) st hlt
        (getElem?_eq_some_getD edges i_start default (by omega))
        (scan_inner_checked_eq dv hdv num_edges _ _ hlen)]
    exact ih ((scan_inner_length num_edges _ _).trans hlen)
  | case2 i_start edges hge =>
    rw [scan_outer, if_neg hge, scan_outer_checked_exit dv _ _ _ hge]

theorem normalize_edges_checked_eq (edges : List Edge) (num_edges : Nat)
    (hlen : edges.length = num_edges) :
    normalize_edges_checked div_plain edges num_edges =
      some (normalize_edges edges num_edges) :=
  scan_outer_checked_eq div_plain (fun _ _ => rfl) num_edges 0 edges hlen

/-! ## The checked personalization block and loops -/

theorem write_checked_eq {α : Type} (v : List α) (i : Nat) (x : α) (h : i < v.length) :
    write_checked v i x = some (v.set i x) := by
  unfold write_checked
  rw [if_pos h]

theorem max_min_scan_checked_eq (p : List ℚ) (n : Nat) (hlen : n ≤ p.length) :
    max_min_scan_checked p n = some (max_min_scan p n) := by
  unfold max_min_scan_checked max_min_scan
  refine (foldlM_eq_some_foldl _ _ (fun _ : ℚ × ℚ => True) (fun i => i < n) ?_ _ ?_
    (0, 1) trivial).1
  · intro st i _ hi
    simp only [getElem?_eq_some_getD p i 0 (by omega : i < p.length)]
    exact ⟨trivial, trivial⟩
  · intro i hi
    exact List.mem_range.mp hi

theorem normalize_personalization_checked_eq (p : List ℚ) (n : Nat) (hlen : p.length = n) :
    normalize_personalization_checked p n = some (normalize_personalization p n) := by
  unfold normalize_personalization_checked normalize_personalization
  rw [max_min_scan_checked_eq p n (by omega)]
  simp only []
  by_cases hc : (max_min_scan p n).1 = (max_min_scan p n).2
  · rw [if_pos hc, if_pos hc]
    refine (foldlM_eq_some_foldl _ _ (fun q : List ℚ => q.length = n) (fun i => i < n) ?_ _ ?_
      p hlen).1
    · intro q i hq hi
      have hn : ¬ (n : ℚ) = 0 := by
        have : (0 : ℚ) < (n : ℚ) := by exact_mod_cast (by omega : 0 < n)
        exact ne_of_gt this
      rw [if_neg hn, write_checked_eq q i _ (by omega)]
      exact ⟨rfl, (List.length_set _ _ _).trans hq⟩
    · intro i hi
      exact List.mem_range.mp hi
  · rw [if_neg hc, if_neg hc]
    refine (foldlM_eq_some_foldl _ _ (fun q : List ℚ => q.length = n) (fun i => i < n) ?_ _ ?_
      p hlen).1
    · intro q i hq hi
      simp only [getElem?_eq_some_getD q i 0 (by omega : i < q.length)]
      rw [write_checked_eq q i _ (by omega)]
      exact ⟨rfl, (List.length_set _ _ _).trans hq⟩
    · intro i hi
      exact List.mem_range.mp hi

theorem init_score_checked_eq (p : List ℚ) (n : Nat) (hlen : n ≤ p.length) :
    init_score_checked p n = some (init_score p n) := by
  unfold init_score_checked init_score
  refine (foldlM_eq_some_foldl _ _ (fun q : List ℚ => q.length = n) (fun i => i < n) ?_ _ ?_
    _ (List.length_replicate _ _)).1
  · intro q i hq hi
    simp only [getElem?_eq_some_getD p i 0 (by omega : i < p.length)]
    rw [write_checked_eq q i _ (by omega)]
    exact ⟨rfl, (List.length_set _ _ _).trans hq⟩
  · intro i hi
    exact List.mem_range.mp hi

theorem restart_term_checked_eq (p : List ℚ) (n : Nat) (alpha : ℚ) (hlen : n ≤ p.length) :
    restart_term_checked p n alpha = some (restart_term p n alpha) := by
  unfold restart_term_checked restart_term
  refine (foldlM_eq_some_foldl _ _ (fun q : List ℚ => q.length = n) (fun i => i < n) ?_ _ ?_
    _ (List.length_replicate _ _)).1
  · intro q i hq hi
    simp only [getElem?_eq_some_getD p i 0 (by omega : i < p.length)]
    rw [write_checked_eq q i _ (by omega)]
    exact ⟨rfl, (List.length_set _ _ _).trans hq⟩
  · intro i hi
    exact List.mem_range.mp hi

theorem rd_checked_eq (v : List ℚ) (i : Int) (h0 : 0 ≤ i) (h1 : i < v.length) :
    rd_checked v i = some (rd v i) := by
  unfold rd_checked rd
  rw [if_pos h0, if_pos h0]
  exact getElem?_eq_some_getD v i.toNat 0 (by omega)

theorem add_at_checked_eq (v : List ℚ) (i : Int) (x : ℚ) (h0 : 0 ≤ i) (h1 : i < v.length) :
    add_at_checked v i x = some (add_at v i x) := by
  unfold add_at_checked add_at
  rw [if_pos h0, if_pos h0]
  simp only [getElem?_eq_some_getD v i.toNat 0 (by omega : i.toNat < v.length)]

theorem getD_ids (edges : List Edge) (N : Nat)
    (hids : ∀ e ∈ edges, 0 ≤ e.src ∧ e.src < N ∧ 0 ≤ e.dst ∧ e.dst < N) (k : Nat)
    (hk : k < edges.length) :
    0 ≤ (edges.getD k default).src ∧ (edges.getD k default).src < N ∧
      0 ≤ (edges.getD k default).dst ∧ (edges.getD k default).dst < N := by
  rw [List.getD_eq_getElem edges default hk]
  exact hids _ (List.getElem_mem hk)

theorem l1_diff_checked_eq (a b : List ℚ) (n : Nat) (ha : n ≤ a.length) (hb : n ≤ b.length) :
    l1_diff_checked a b n = some (l1_diff a b n) := by
  unfold l1_diff_checked l1_diff
  refine (foldlM_eq_some_foldl _ _ (fun _ : ℚ => True) (fun i => i < n) ?_ _ ?_ 0 trivial).1
  · intro d i _ hi
    simp only [getElem?_eq_some_getD a i 0 (by omega : i < a.length),
      getElem?_eq_some_getD b i 0 (by omega : i < b.length)]
    exact ⟨trivial, trivial⟩
  · intro i hi
    exact List.mem_range.mp hi

theorem remainder_loop_checked_eq (edges : List Edge) (num_edges : Nat) (score : List ℚ)
    (alpha : ℚ) (N : Nat) (hlen : edges.length = num_edges)
    (hids : ∀ e ∈ edges, 0 ≤ e.src ∧ e.src < N ∧ 0 ≤ e.dst ∧ e.dst < N)
    (hscore : score.length = N) (i : Nat) (ns : List ℚ) (hns : ns.length = N) :
    remainder_loop_checked edges num_edges score alpha i ns =
      some (remainder_loop edges num_edges score alpha i ns) := by
  unfold remainder_loop_checked remainder_loop
  refine (foldlM_eq_some_foldl _ _ (fun q : List ℚ => q.length = N) (fun k => k < num_edges)
    ?_ _ ?_ ns hns).1
  · intro q k hq hk
    obtain ⟨h1, h2, h3, h4⟩ := getD_ids edges N hids k (by omega)
    simp only [getElem?_eq_some_getD edges k default (by omega : k < edges.length),
      rd_checked_eq score _ h1 (by omega)]
    rw [add_at_checked_eq q _ _ h3 (by omega)]
    exact ⟨rfl, (add_at_length _ _ _).trans hq⟩
  · intro k hk
    rw [List.mem_range'_1] at hk
    omega

/-! ## The checked propagation -/

theorem simd_loop_checked_exit (edges : List Edge) (num_edges : Nat) (score : List ℚ)
    (alpha : ℚ) (i : Nat) (ns : List ℚ) (h : ¬ (i : Int) < (num_edges : Int) - 3) :
    simd_loop_checked edges num_edges score alpha i ns = some (i, ns) := by
  rw [simd_loop_checked.eq_1, if_neg h]

/-- The four updates of one pass of the four-at-a-time loop, checked. -/
theorem simd_inner_checked_eq (edges : List Edge) (N : Nat)
    (hids : ∀ e ∈ edges, 0 ≤ e.src ∧ e.src < N ∧ 0 ≤ e.dst ∧ e.dst < N)
    (i : Nat) (hi3 : i + 3 < edges.length) (tmp : List ℚ) (htmp : tmp.length = 4)
    (ns : List ℚ) (hns : ns.length = N) :
    (List.range 4).foldlM
        (fun ns j =>
          match edges[i + j]?, tmp[3 - j]? with
          | some e, some t => add_at_checked ns e.dst t
          | _, _ => none) ns =
      some ((List.range 4).foldl
        (fun ns j => add_at ns (edges.getD (i + j) default).dst (tmp.getD (3 - j) 0)) ns) ∧
    ((List.range 4).foldl
        (fun ns j => add_at ns (edges.getD (i + j) default).dst (tmp.getD (3 - j) 0)) ns).length
      = N := by
  refine foldlM_eq_some_foldl _ _ (fun q : List ℚ => q.length = N) (fun j => j < 4) ?_ _ ?_
    ns hns
  · intro q j hq hj
    obtain ⟨-, -, h3, h4⟩ := getD_ids edges N hids (i + j) (by omega)
    simp only [getElem?_eq_some_getD edges (i + j) default (by omega : i + j < edges.length),
      getElem?_eq_some_getD tmp (3 - j) 0 (by omega : 3 - j < tmp.length)]
    rw [add_at_checked_eq q _ _ h3 (by omega)]
    exact ⟨rfl, (add_at_length _ _ _).trans hq⟩
  · intro j hj
    exact List.mem_range.mp hj

theorem simd_loop_checked_eq (edges : List Edge) (num_edges : Nat) (score : List ℚ)
    (alpha : ℚ) (N : Nat) (hlen : edges.length = num_edges)
    (hids : ∀ e ∈ edges, 0 ≤ e.src ∧ e.src < N ∧ 0 ≤ e.dst ∧ e.dst < N)
    (hscore : score.length = N) :
    ∀ (m i : Nat) (ns : List ℚ), num_edges - i ≤ m → ns.length = N →
      simd_loop_checked edges num_edges score alpha i ns =
          some (simd_loop edges num_edges score alpha i ns) ∧
        (simd_loop edges num_edges score alpha i ns).2.length = N := by
  intro m
  induction m with
  | zero =>
    intro i ns hm hns
    have h : ¬ (i : Int) < (num_edges : Int) - 3 := by omega
    rw [simd_loop_checked_exit _ _ _ _ _ _ h, simd_loop_exit _ _ _ _ _ _ h]
    exact ⟨rfl, hns⟩
  | succ m ih =>
    intro i ns hm hns
    by_cases h : (i : Int) < (num_edges : Int) - 3
    · have hi3 : i + 3 < edges.length := by omega
      obtain ⟨a0, a1, -, -⟩ := getD_ids edges N hids i (by omega)
      obtain ⟨b0, b1, -, -⟩ := getD_ids edges N hids (i + 1) (by omega)
      obtain ⟨c0, c1, -, -⟩ := getD_ids edges N hids (i + 2) (by omega)
      obtain ⟨d0, d1, -, -⟩ := getD_ids edges N hids (i + 3) (by omega)
      obtain ⟨hin, hinlen⟩ := simd_inner_checked_eq edges N hids i hi3
        (_mm256_store_pd (_mm256_mul_pd
          (_mm256_mul_pd (_mm256_set1_pd alpha)
            (_mm256_set_pd (rd score (edges.getD i default).src)
              (rd score (edges.getD (i + 1) default).src)
              (rd score (edges.getD (i + 2) default).src)
              (rd score (edges.getD (i + 3) default).src)))
          (_mm256_set_pd (edges.getD i default).weight (edges.getD (i + 1) default).weight
            (edges.getD (i + 2) default).weight (edges.getD (i + 3) default).weight)))
        rfl ns hns
      rw [simd_loop_checked.eq_1, if_pos h, simd_loop, if_pos h]
      simp only [getElem?_eq_some_getD edges i default (by omega : i < edges.length),
        getElem?_eq_some_getD edges (i + 1) default (by omega : i + 1 < edges.length),
        getElem?_eq_some_getD edges (i + 2) default (by omega : i + 2 < edges.length),
        getElem?_eq_some_getD edges (i + 3) default hi3,
        rd_checked_eq score _ a0 (by omega), rd_checked_eq score _ b0 (by omega),
        rd_checked_eq score _ c0 (by omega), rd_checked_eq score _ d0 (by omega), hin]
      exact ih (i + 4) _ (by omega) hinlen
    · rw [simd_loop_checked_exit _ _ _ _ _ _ h, simd_loop_exit _ _ _ _ _ _ h]
      exact ⟨rfl, hns⟩

theorem propagate_checked_eq (edges : List Edge) (num_edges : Nat) (score : List ℚ)
    (alpha : ℚ) (N : Nat) (hlen : edges.length = num_edges)
    (hids : ∀ e ∈ edges, 0 ≤ e.src ∧ e.src < N ∧ 0 ≤ e.dst ∧ e.dst < N)
    (hscore : score.length = N) (ns : List ℚ) (hns : ns.length = N) :
    propagate_checked edges num_edges score alpha ns =
      some (propagate edges num_edges score alpha ns) := by
  obtain ⟨h1, h2⟩ := simd_loop_checked_eq edges num_edges score alpha N hlen hids hscore
    num_edges 0 ns (by omega) hns
  unfold propagate_checked propagate
  rw [h1]
  exact remainder_loop_checked_eq edges num_edges score alpha N hlen hids hscore _ _ h2

theorem update_step_checked_eq (edges : List Edge) (num_edges : Nat) (p : List ℚ) (N : Nat)
    (alpha : ℚ) (score : List ℚ) (hlen : edges.length = num_edges)
    (hids : ∀ e ∈ edges, 0 ≤ e.src ∧ e.src < N ∧ 0 ≤ e.dst ∧ e.dst < N)
    (hp : p.length = N) (hscore : score.length = N) :
    update_step_checked edges num_edges p N alpha score =
      some (update_step edges num_edges p N alpha score) := by
  unfold update_step_checked update_step
  rw [restart_term_checked_eq p N alpha (by omega)]
  exact propagate_checked_eq edges num_edges score alpha N hlen hids hscore _
    (restart_term_length p N alpha)

/-! ## The checked run -/

theorem iterate_checked_eq (edges : List Edge) (num_edges : Nat) (p : List ℚ) (N : Nat)
    (alpha tol : ℚ) (hlen : edges.length = num_edges)
    (hids : ∀ e ∈ edges, 0 ≤ e.src ∧ e.src < N ∧ 0 ≤ e.dst ∧ e.dst < N)
    (hp : p.length = N) :
    ∀ (remaining : Nat) (score : List ℚ) (updates : Nat), score.length = N →
      iterate_checked edges num_edges p N alpha tol remaining score updates =
        some (iterate edges num_edges p N alpha tol remaining score updates) := by
  intro remaining
  induction remaining with
  | zero =>
    intro score updates _
    rw [iterate_checked, iterate_zero]
  | succ r ih =>
    intro score updates hscore
    have hnew : (update_step edges num_edges p N alpha score).length = N :=
      update_step_length edges num_edges p N alpha score
    rw [iterate_checked, update_step_checked_eq edges num_edges p N alpha score hlen hids hp
      hscore]
    simp only []
    rw [l1_diff_checked_eq _ _ N (by omega) (by omega)]
    simp only []
    rw [iterate_succ edges num_edges p N alpha tol _ rfl]
    by_cases hd : l1_diff (update_step edges num_edges p N alpha score) score N < tol
    · rw [if_pos hd, if_pos hd]
    · rw [if_neg hd, if_neg hd]
      exact ih _ _ hnew

theorem pagerank_length (edges : List Edge) (num_edges : Nat) (personalization : List ℚ)
    (num_nodes : Nat) (alpha : ℚ) (max_iter : Int) (tol : ℚ) :
    (pagerank edges num_edges personalization num_nodes alpha max_iter tol).length
      = num_nodes := by
  obtain ⟨K, -, hres, -, -, -⟩ :=
    pagerank_run_spec edges num_edges personalization num_nodes alpha max_iter tol
  unfold pagerank
  rw [hres]
  exact iterate_step_length _ num_nodes (fun s => update_step_length _ _ _ _ _ s) K _
    (init_score_length _ _)

theorem pagerank_checked_eq (edges : List Edge) (num_edges : Nat) (personalization : List ℚ)
    (num_nodes : Nat) (alpha : ℚ) (max_iter : Int) (tol : ℚ)
    (hedges : edges.length = num_edges)
    (hids : ∀ e ∈ edges, 0 ≤ e.src ∧ e.src < num_nodes ∧ 0 ≤ e.dst ∧ e.dst < num_nodes)
    (hp : personalization.length = num_nodes) :
    pagerank_checked edges num_edges personalization num_nodes alpha max_iter tol =
      some (pagerank_run edges num_edges personalization num_nodes alpha max_iter tol) := by
  have hq : qsort_checked edges num_edges compare_edges =
      some (qsort edges num_edges compare_edges) := by
    unfold qsort_checked
    rw [if_pos (by omega)]
  have hqlen : (qsort edges num_edges compare_edges).length = num_edges :=
    (qsort_length _ _ _).trans hedges
  have hpn : (normalize_personalization personalization num_nodes).length = num_nodes :=
    (normalize_personalization_length _ _).trans hp
  unfold pagerank_checked pagerank_run
  rw [hq]
  simp only []
  rw [normalize_edges_checked_eq _ _ hqlen]
  simp only []
  rw [normalize_personalization_checked_eq _ _ hp]
  simp only []
  rw [init_score_checked_eq _ _ (by omega)]
  simp only []
  exact iterate_checked_eq _ num_edges _ num_nodes alpha tol
    ((normalized_edges_length edges num_edges).trans hedges)
    (normalized_edges_ids
      (fun s d => 0 ≤ s ∧ s < num_nodes ∧ 0 ≤ d ∧ d < num_nodes) edges num_edges hids)
    hpn _ _ 0 (init_score_length _ _)

/-- Claim C12: for `num_nodes > 0`, an edge array of `num_edges` entries
whose `src` and `dst` lie in `[0, num_nodes)` and a personalization vector
of `num_nodes` entries, the checked run of `pagerank` meets no access
outside an array and no zero divisor in `1.0L / num_nodes`: it returns what
the unchecked run returns, a score vector of length `num_nodes`. -/
theorem pagerank_in_bounds (edges : List Edge) (num_edges : Nat) (personalization : List ℚ)
    (num_nodes : Nat) (alpha : ℚ) (max_iter : Int) (tol : ℚ)
    (_hn : 0 < num_nodes) (hedges : edges.length = num_edges)
    (hids : ∀ e ∈ edges, 0 ≤ e.src ∧ e.src < num_nodes ∧ 0 ≤ e.dst ∧ e.dst < num_nodes)
    (hp : personalization.length = num_nodes) :
    pagerank_checked edges num_edges personalization num_nodes alpha max_iter tol =
        some (pagerank_run edges num_edges personalization num_nodes alpha max_iter tol) ∧
      (pagerank edges num_edges personalization num_nodes alpha max_iter tol).length
        = num_nodes :=
  ⟨pagerank_checked_eq edges num_edges personalization num_nodes alpha max_iter tol hedges hids
      hp,
    pagerank_length edges num_edges personalization num_nodes alpha max_iter tol⟩

theorem pagerank_in_bounds_witness :
    0 < 5 ∧ main_edges.length = 6 ∧ main_personalization.length = 5 ∧
      pagerank_checked main_edges 6 main_personalization 5 (17/20) 100 (1/1000000) =
        some (pagerank_run main_edges 6 main_personalization 5 (17/20) 100 (1/1000000)) ∧
      (pagerank main_edges 6 main_personalization 5 (17/20) 100 (1/1000000)).length = 5 :=
  ⟨by decide, rfl, rfl,
    pagerank_in_bounds main_edges 6 main_personalization 5 (17/20) 100 (1/1000000)
      (by decide) rfl (by decide) rfl⟩

/-! ## The scan with the division guarded -/

theorem div_guarded_of_ne_zero (s : ℚ) (hs : s ≠ 0) (w : ℚ) :
    div_guarded w s = some (w / s) := by
  unfold div_guarded
  rw [if_neg hs]

theorem divide_run_guarded_zero (es : List Edge) (a b : Nat) (hab : a < b)
    (ha : a < es.length) : divide_run_checked div_guarded es 0 a b = none := by
  unfold divide_run_checked
  obtain ⟨k, hk⟩ : ∃ k, b - a = k + 1 := ⟨b - a - 1, by omega⟩
  rw [hk, List.range'_succ, List.foldlM_cons]
  simp only [getElem?_eq_some_getD es a default ha, div_guarded, if_true]
  rfl


theorem scan_inner_i_start (num_edges : Nat) (now_src : Int) (st : ScanState)
    (h : st.i_start < num_edges) : (scan_inner num_edges now_src st).i_start = num_edges := by
  unfold scan_inner
  obtain ⟨k, hk⟩ : ∃ k, num_edges - st.i_start = k + 1 := ⟨num_edges - st.i_start - 1, by omega⟩
  have hlast : st.i_start + 1 + 1 * k = num_edges := by omega
  rw [hk, List.range'_concat, List.foldl_append, hlast]
  simp [scan_step]

theorem scan_fold_length (edges : List Edge) (c : Int) (st : ScanState) (l : List Nat) :
    (l.foldl (scan_step edges.length c) st).edges.length = st.edges.length :=
  foldl_invariant (fun s : ScanState => s.edges.length = st.edges.length)
    (scan_step edges.length c)
    (fun s i hs => (scan_step_length edges.length c s i).trans hs) l st rfl

/-- The guarded `i_end` loop follows the unguarded one as long as no run
is closed with a zero sum: through the first run in any case, and to the end
when the sum of the first run is not zero. -/
theorem scan_fold_guarded (edges : List Edge) (c : Int) (r : Nat) (hr1 : 1 ≤ r)
    (hrn : r ≤ edges.length)
    (H1 : ∀ k, k < r → (edges.getD k default).src = c)
    (H2 : ∀ k, r ≤ k → k < edges.length → (edges.getD k default).src ≠ c) :
    ∀ m, m ≤ edges.length → (((edges.take r).map Edge.weight).sum ≠ 0 ∨ m < r) →
      (List.range' 1 m).foldlM (scan_step_checked div_guarded edges.length c)
          ⟨0, (edges.getD 0 default).weight, edges⟩ =
        some ((List.range' 1 m).foldl (scan_step edges.length c)
          ⟨0, (edges.getD 0 default).weight, edges⟩) := by
  intro m
  induction m with
  | zero => intro _ _; rfl
  | succ m ih =>
    intro hm hgood
    have ihm := ih (by omega) (by rcases hgood with h | h; exact Or.inl h; exact Or.inr (by omega))
    obtain ⟨p1, p2⟩ := scan_fold_state edges c r hr1 hrn H1 H2 m (by omega)
    have hlen := scan_fold_length edges c ⟨0, (edges.getD 0 default).weight, edges⟩
      (List.range' 1 m)
    rw [List.range'_concat, List.foldlM_append, ihm, List.foldl_append]
    simp only [Option.bind_eq_bind, Option.some_bind, List.foldlM_cons, List.foldlM_nil,
      List.foldl_cons, List.foldl_nil, one_mul]
    generalize (List.range' 1 m).foldl (scan_step edges.length c)
      ⟨0, (edges.getD 0 default).weight, edges⟩ = st at p1 p2 hlen
    have hstep : scan_step_checked div_guarded edges.length c st (1 + m) =
        some (scan_step edges.length c st (1 + m)) := by
      refine scan_step_checked_eq div_guarded edges.length c st (1 + m) hlen (by omega) ?_
      intro hclose
      apply div_guarded_of_ne_zero
      by_cases hmr : m < r
      · obtain ⟨-, hs, he⟩ := p1 hmr
        by_cases hlt : m + 1 < r
        · exfalso
          rcases hclose with h | h
          · omega
          · rw [he] at h
            exact h (H1 (1 + m) (by omega))
        · have hS : ((edges.take r).map Edge.weight).sum ≠ 0 := by
            rcases hgood with h | h
            · exact h
            · omega
          have hrm : r = m + 1 := by omega
          rw [hs, ← hrm]
          exact hS
      · have hS : ((edges.take r).map Edge.weight).sum ≠ 0 := by
          rcases hgood with h | h
          · exact h
          · omega
        rw [(p2 (by omega)).2.1]
        exact hS
    rw [hstep]
    rfl

/-- With the division guarded, the normalization of a non-empty array
sorted by `src` fails exactly when the total weight of the first edge's
source is zero; the totals of the other sources play no part. -/
theorem normalize_edges_guarded_sorted (edges : List Edge) (hne : edges ≠ [])
    (hsorted : edges.Pairwise (fun a b => a.src ≤ b.src)) :
    normalize_edges_checked div_guarded edges edges.length =
      if out_weight edges (edges.head hne).src = 0 then none
      else some (edges.map (fun e =>
        { e with weight := e.weight / out_weight edges (edges.head hne).src })) := by
  obtain ⟨r, hrn, H1, H2, htake⟩ :=
    sorted_run edges (edges.head hne).src hsorted (head_src_le edges hne hsorted)
  have hpos : 0 < edges.length := List.length_pos.mpr hne
  have hr1 : 1 ≤ r := by
    by_contra hcon
    have hr0 : r = 0 := by omega
    exact H2 0 (by omega) hpos (by rw [getD_zero_eq_head edges hne])
  have hS : out_weight edges (edges.head hne).src = ((edges.take r).map Edge.weight).sum := by
    unfold out_weight
    rw [htake]
  have hhead : edges[0]? = some (edges.head hne) := by
    rw [getElem?_eq_some_getD edges 0 default hpos, getD_zero_eq_head edges hne]
  have hw0 : (edges.head hne).weight = (edges.getD 0 default).weight := by
    rw [getD_zero_eq_head edges hne]
  unfold normalize_edges_checked
  by_cases hz : out_weight edges (edges.head hne).src = 0
  · rw [if_pos hz]
    refine scan_outer_checked_fail div_guarded edges.length 0 edges (edges.head hne) hpos hhead ?_
    unfold scan_inner_checked
    have hsplit : List.range' (0 + 1) (edges.length - 0) =
        List.range' 1 (r - 1) ++ (r :: List.range' (r + 1) (edges.length - r)) := by
      have h1 : edges.length - 0 = (edges.length - r + 1) + (r - 1) := by omega
      have h2 : 1 + (r - 1) = r := by omega
      rw [h1, ← List.range'_append_1, List.range'_succ, h2]
    obtain ⟨p1, -⟩ := scan_fold_state edges (edges.head hne).src r hr1 hrn H1 H2 (r - 1)
      (by omega)
    obtain ⟨hi, hs, he⟩ := p1 (by omega)
    have hpre := scan_fold_guarded edges (edges.head hne).src r hr1 hrn H1 H2 (r - 1)
      (by omega) (Or.inr (by omega))
    rw [hw0, hsplit, List.foldlM_append, hpre]
    simp only [Option.bind_eq_bind, Option.some_bind, List.foldlM_cons]
    generalize (List.range' 1 (r - 1)).foldl (scan_step edges.length (edges.head hne).src)
      ⟨0, (edges.getD 0 default).weight, edges⟩ = st at hi hs he
    have hsum : st.sum_weight = 0 := by
      rw [hs, (by omega : r - 1 + 1 = r), ← hS, hz]
    obtain ⟨i0, sw, es⟩ := st
    simp only at hi he hsum
    subst hi he hsum
    have hd : divide_run_checked div_guarded es 0 0 r = none :=
      divide_run_guarded_zero es 0 r (by omega) hpos
    have hfail : scan_step_checked div_guarded es.length (es.head hne).src ⟨0, 0, es⟩ r
        = none := by
      unfold scan_step_checked
      by_cases hrn' : r = es.length
      · rw [if_pos hrn']
        simp only [hd]
      · rw [if_neg hrn']
        simp only [getElem?_eq_some_getD es r default (by omega : r < es.length)]
        rw [if_pos (H2 r (le_refl _) (by omega))]
        simp only [hd]
    rw [hfail]
    rfl
  · rw [if_neg hz]
    have hin : scan_inner_checked div_guarded edges.length (edges.head hne).src
        ⟨0, (edges.head hne).weight, edges⟩ =
        some (scan_inner edges.length (edges.getD 0 default).src
          ⟨0, (edges.getD 0 default).weight, edges⟩) := by
      have := scan_fold_guarded edges (edges.head hne).src r hr1 hrn H1 H2 edges.length
        (le_refl _) (Or.inl (by rw [← hS]; exact hz))
      rw [getD_zero_eq_head edges hne]
      unfold scan_inner_checked scan_inner
      rw [getD_zero_eq_head edges hne] at this
      simpa only [Nat.zero_add, Nat.sub_zero] using this
    have hplain := normalize_edges_sorted_eq edges hne hsorted
    unfold normalize_edges at hplain
    rw [scan_outer, if_pos hpos] at hplain
    rw [scan_outer_checked_step div_guarded edges.length 0 edges (edges.head hne) _ hpos hhead
      hin, ← hplain]
    have hexit : ¬ (scan_inner edges.length (edges.getD 0 default).src
        ⟨0, (edges.getD 0 default).weight, edges⟩).i_start + 1 < edges.length := by
      rw [scan_inner_i_start edges.length _ _ hpos]
      omega
    simp only []
    rw [scan_outer_checked_exit _ _ _ _ hexit, scan_outer, if_neg hexit]

/-! ## The claims on zero divisors and on accesses -/

/-- Claim C14, evaluated on the sorted array `(0, 1, 1), (1, 0, 0)`: the
total outgoing weight of node 1 is zero, yet the normalization with the
division guarded meets no zero divisor (the only divisor is `1`, the total
of node 0) and returns the array unchanged; the claim requires a division by
zero for the run of node 1. -/
theorem normalize_edges_guarded_zero_source :
    out_weight [⟨0, 1, 1⟩, ⟨1, 0, 0⟩] 1 = 0 ∧
      normalize_edges_checked div_guarded [⟨0, 1, 1⟩, ⟨1, 0, 0⟩] 2 =
        some [⟨0, 1, 1⟩, ⟨1, 0, 0⟩] := by
  constructor
  · simp [out_weight, List.filter]
  · unfold normalize_edges_checked
    rw [scan_outer_checked_step div_guarded 2 0 _ ⟨0, 1, 1⟩ ⟨2, 1, [⟨0, 1, 1⟩, ⟨1, 0, 0⟩]⟩
      (by decide) rfl
      (by simp [scan_inner_checked, scan_step_checked, divide_run_checked, div_guarded,
        List.range'])]
    exact scan_outer_checked_exit _ _ _ _ (by decide)

/-- The checks of the checked run are effective: an edge whose `dst` is
`num_nodes` makes the first update fail. -/
theorem pagerank_checked_out_of_range :
    pagerank_checked [⟨0, 2, 1⟩] 1 [0, 1] 2 (1/2) 1 0 = none := by
  have hq : qsort [⟨0, 2, 1⟩] 1 compare_edges = [⟨0, 2, 1⟩] := by
    simp [qsort, List.insertionSort, List.orderedInsert]
  have hE : normalize_edges [⟨0, 2, 1⟩] 1 = [⟨0, 2, 1⟩] := by
    rw [normalize_edges, scan_outer]
    simp [scan_inner, scan_step, divide_run, List.range']
    rw [scan_outer]
    simp
  have hP : normalize_personalization [0, 1] 2 = [0, 1] := by
    simp [normalize_personalization, max_min_scan, List.range_succ]
    norm_num
  have hS : init_score [0, 1] 2 = [0, 1] := init_score_eq _ _ rfl
  have hR : restart_term [0, 1] 2 (1/2) = [0, 1/2] := by
    simp [restart_term, List.range_succ]
    norm_num
  unfold pagerank_checked qsort_checked
  rw [if_pos (by decide), hq]
  simp only []
  rw [normalize_edges_checked_eq [⟨0, 2, 1⟩] 1 rfl, hE]
  simp only []
  rw [normalize_personalization_checked_eq [0, 1] 2 rfl, hP]
  simp only []
  rw [init_score_checked_eq [0, 1] 2 (by decide), hS]
  simp only [Int.toNat_one]
  rw [iterate_checked]
  unfold update_step_checked
  rw [restart_term_checked_eq [0, 1] 2 (1/2) (by decide), hR]
  simp only []
  unfold propagate_checked
  rw [simd_loop_checked_exit _ _ _ _ _ _ (by decide)]
  simp [remainder_loop_checked, List.range', rd_checked, add_at_checked]

/-! ## Non-negative scores and the zero divisor of the edge scan -/

/-- For ids below `2^31`, `compare_edges a b ≤ 0` orders the sources. -/
theorem compare_edges_le_src (a b : Edge)
    (ha : 0 ≤ a.src ∧ a.src < 2 ^ 31 ∧ 0 ≤ a.dst ∧ a.dst < 2 ^ 31)
    (hb : 0 ≤ b.src ∧ b.src < 2 ^ 31 ∧ 0 ≤ b.dst ∧ b.dst < 2 ^ 31) :
    (compare_edges a b ≤ 0 → a.src ≤ b.src) ∧ (¬ compare_edges a b ≤ 0 → b.src ≤ a.src) := by
  obtain ⟨h1, h2⟩ := compare_edges_small a b ha hb
  constructor
  · intro h
    rcases lt_or_eq_of_le h with h' | h'
    · rcases h1.mp h' with h3 | h3
      · exact le_of_lt h3
      · exact le_of_eq h3.1
    · exact le_of_eq (h2.mp h').1
  · intro h
    by_contra hcon
    exact h (le_of_lt (h1.mpr (Or.inl (not_le.mp hcon))))

theorem orderedInsert_src_sorted (a : Edge) (l : List Edge)
    (ha : 0 ≤ a.src ∧ a.src < 2 ^ 31 ∧ 0 ≤ a.dst ∧ a.dst < 2 ^ 31)
    (hl : ∀ e ∈ l, 0 ≤ e.src ∧ e.src < 2 ^ 31 ∧ 0 ≤ e.dst ∧ e.dst < 2 ^ 31)
    (hs : l.Pairwise (fun x y => x.src ≤ y.src)) :
    (List.orderedInsert (fun x y => compare_edges x y ≤ 0) a l).Pairwise
      (fun x y => x.src ≤ y.src) := by
  induction l with
  | nil => exact List.pairwise_singleton _ _
  | cons b l ih =>
    obtain ⟨h1, h2⟩ := compare_edges_le_src a b ha (hl b (List.mem_cons_self _ _))
    rw [List.pairwise_cons] at hs
    show (if compare_edges a b ≤ 0 then a :: b :: l
      else b :: List.orderedInsert (fun x y => compare_edges x y ≤ 0) a l).Pairwise _
    by_cases hc : compare_edges a b ≤ 0
    · rw [if_pos hc, List.pairwise_cons]
      refine ⟨fun x hx => ?_, List.pairwise_cons.mpr hs⟩
      rcases List.mem_cons.mp hx with h | h
      · rw [h]; exact h1 hc
      · exact le_trans (h1 hc) (hs.1 x h)
    · rw [if_neg hc, List.pairwise_cons]
      refine ⟨fun x hx => ?_, ih (fun e he => hl e (List.mem_cons_of_mem _ he)) hs.2⟩
      rcases (List.mem_orderedInsert _).mp hx with h | h
      · rw [h]; exact h2 hc
      · exact hs.1 x h

theorem insertionSort_src_sorted (l : List Edge)
    (hl : ∀ e ∈ l, 0 ≤ e.src ∧ e.src < 2 ^ 31 ∧ 0 ≤ e.dst ∧ e.dst < 2 ^ 31) :
    (List.insertionSort (fun x y => compare_edges x y ≤ 0) l).Pairwise
      (fun x y => x.src ≤ y.src) := by
  induction l with
  | nil => exact List.Pairwise.nil
  | cons a l ih =>
    show (List.orderedInsert (fun x y => compare_edges x y ≤ 0) a
      (List.insertionSort (fun x y => compare_edges x y ≤ 0) l)).Pairwise _
    refine orderedInsert_src_sorted a _ (hl a (List.mem_cons_self _ _)) (fun e he => ?_)
      (ih (fun e he => hl e (List.mem_cons_of_mem _ he)))
    exact hl e (List.mem_cons_of_mem _ ((List.perm_insertionSort _ l).mem_iff.mp he))

theorem qsort_eq_insertionSort (edges : List Edge) (num_edges : Nat)
    (hlen : edges.length = num_edges) :
    qsort edges num_edges compare_edges =
      List.insertionSort (fun x y => compare_edges x y ≤ 0) edges := by
  unfold qsort
  rw [List.take_of_length_le (by omega), List.drop_eq_nil_of_le (by omega), List.append_nil]

/-- For ids below `2^31` the sort leaves the array in the order of its
sources. -/
theorem qsort_src_sorted (edges : List Edge) (num_edges : Nat)
    (hlen : edges.length = num_edges)
    (hl : ∀ e ∈ edges, 0 ≤ e.src ∧ e.src < 2 ^ 31 ∧ 0 ≤ e.dst ∧ e.dst < 2 ^ 31) :
    (qsort edges num_edges compare_edges).Pairwise (fun x y => x.src ≤ y.src) := by
  rw [qsort_eq_insertionSort edges num_edges hlen]
  exact insertionSort_src_sorted edges hl

theorem out_weight_qsort (edges : List Edge) (num_edges : Nat)
    (hlen : edges.length = num_edges) (s : Int) :
    out_weight (qsort edges num_edges compare_edges) s = out_weight edges s := by
  rw [qsort_eq_insertionSort edges num_edges hlen]
  unfold out_weight
  exact (((List.perm_insertionSort _ edges).filter _).map _).sum_eq

/-- On an array sorted by `src` in which every source has a non-zero total
weight, the normalization with the division guarded meets no zero divisor
and returns what the unguarded one returns. -/
theorem normalize_edges_guarded_eq (edges : List Edge) (num_edges : Nat)
    (hlen : edges.length = num_edges)
    (hsorted : edges.Pairwise (fun a b => a.src ≤ b.src))
    (hsum : ∀ e ∈ edges, out_weight edges e.src ≠ 0) :
    normalize_edges_checked div_guarded edges num_edges =
      some (normalize_edges edges num_edges) := by
  subst hlen
  by_cases hne : edges = []
  · subst hne
    unfold normalize_edges_checked normalize_edges
    rw [scan_outer_checked_exit _ _ _ _ (by simp), scan_outer, if_neg (by simp)]
  · rw [normalize_edges_guarded_sorted edges hne hsorted,
      if_neg (hsum _ (List.head_mem hne)), normalize_edges_sorted_eq edges hne hsorted]

theorem pagerank_guarded_eq (edges : List Edge) (num_edges : Nat) (personalization : List ℚ)
    (num_nodes : Nat) (alpha : ℚ) (max_iter : Int) (tol : ℚ)
    (hedges : edges.length = num_edges)
    (hids : ∀ e ∈ edges, 0 ≤ e.src ∧ e.src < num_nodes ∧ 0 ≤ e.dst ∧ e.dst < num_nodes)
    (hp : personalization.length = num_nodes) (hsmall : (num_nodes : Int) ≤ 2 ^ 31)
    (hsum : ∀ e ∈ edges, 0 < out_weight edges e.src) :
    pagerank_guarded edges num_edges personalization num_nodes alpha max_iter tol =
      some (pagerank_run edges num_edges personalization num_nodes alpha max_iter tol) := by
  have hq : qsort_checked edges num_edges compare_edges =
      some (qsort edges num_edges compare_edges) := by
    unfold qsort_checked
    rw [if_pos (by omega)]
  have hqlen : (qsort edges num_edges compare_edges).length = num_edges :=
    (qsort_length _ _ _).trans hedges
  have hpn : (normalize_personalization personalization num_nodes).length = num_nodes :=
    (normalize_personalization_length _ _).trans hp
  have hsorted := qsort_src_sorted edges num_edges hedges
    (fun e he => by have := hids e he; omega)
  have hsum' : ∀ e ∈ qsort edges num_edges compare_edges,
      out_weight (qsort edges num_edges compare_edges) e.src ≠ 0 := by
    intro e he
    rw [out_weight_qsort edges num_edges hedges]
    exact ne_of_gt (hsum e (qsort_mem _ _ _ e he))
  unfold pagerank_guarded pagerank_run
  rw [hq]
  simp only []
  rw [normalize_edges_guarded_eq _ _ hqlen hsorted hsum']
  simp only []
  rw [normalize_personalization_checked_eq _ _ hp]
  simp only []
  rw [init_score_checked_eq _ _ (by omega)]
  simp only []
  exact iterate_checked_eq _ num_edges _ num_nodes alpha tol
    ((normalized_edges_length edges num_edges).trans hedges)
    (normalized_edges_ids
      (fun s d => 0 ≤ s ∧ s < num_nodes ∧ 0 ≤ d ∧ d < num_nodes) edges num_edges hids)
    hpn _ _ 0 (init_score_length _ _)

/-- For `num_nodes ≤ 2^31`, where the `int` that `compare_edges` returns
is the difference of the ids, the hypotheses of claim C10 exclude a zero
divisor: the run with the division guarded returns what `pagerank` returns,
a vector of `num_nodes` non-negative entries. -/
theorem pagerank_guarded_nonneg (edges : List Edge) (num_edges : Nat)
    (personalization : List ℚ) (num_nodes : Nat) (alpha : ℚ) (max_iter : Int) (tol : ℚ)
    (hedges : edges.length = num_edges) (hp : personalization.length = num_nodes)
    (hsmall : (num_nodes : Int) ≤ 2 ^ 31)
    (hids : ∀ e ∈ edges, 0 ≤ e.src ∧ e.src < num_nodes ∧ 0 ≤ e.dst ∧ e.dst < num_nodes)
    (hw : ∀ e ∈ edges, 0 ≤ e.weight) (hsum : ∀ e ∈ edges, 0 < out_weight edges e.src)
    (ha0 : 0 ≤ alpha) (ha1 : alpha < 1) :
    pagerank_guarded edges num_edges personalization num_nodes alpha max_iter tol =
        some (pagerank_run edges num_edges personalization num_nodes alpha max_iter tol) ∧
      (pagerank edges num_edges personalization num_nodes alpha max_iter tol).length
        = num_nodes ∧
      ∀ x ∈ pagerank edges num_edges personalization num_nodes alpha max_iter tol, 0 ≤ x :=
  ⟨pagerank_guarded_eq edges num_edges personalization num_nodes alpha max_iter tol hedges hids
      hp hsmall hsum,
    pagerank_nonneg_aux edges num_edges personalization num_nodes alpha max_iter tol hp hw ha0
      ha1⟩

/-- The test driver's input meets the hypotheses of `pagerank_guarded_nonneg`. -/
theorem pagerank_guarded_nonneg_main :
    pagerank_guarded main_edges 6 main_personalization 5 (17/20) 100 (1/1000000) =
        some (pagerank_run main_edges 6 main_personalization 5 (17/20) 100 (1/1000000)) ∧
      (pagerank main_edges 6 main_personalization 5 (17/20) 100 (1/1000000)).length = 5 ∧
      ∀ x ∈ pagerank main_edges 6 main_personalization 5 (17/20) 100 (1/1000000), 0 ≤ x :=
  pagerank_guarded_nonneg main_edges 6 main_personalization 5 (17/20) 100 (1/1000000)
    rfl rfl (by decide) (by decide)
    (by simp [main_edges]; norm_num)
    (by simp [main_edges, out_weight, List.filter]; norm_num)
    (by norm_num) (by norm_num)


theorem qsort_gap_edges : qsort gap_edges 3 compare_edges = gap_edges := by
  simp [qsort, gap_edges, compare_edges, to_int, List.insertionSort, List.orderedInsert]

/-- On `gap_edges` the scan closes the run of the first edge alone, with
the sum `0`. -/
theorem gap_edges_zero_divisor :
    normalize_edges_checked div_guarded gap_edges 3 = none := by
  unfold normalize_edges_checked
  exact scan_outer_checked_fail div_guarded 3 0 gap_edges ⟨0, 0, 0⟩ (by decide) rfl
    (by simp [gap_edges, scan_inner_checked, scan_step_checked, divide_run_checked, div_guarded,
      List.range'])

/-- Claim C10, evaluated on the edges `0 → 0` (weight `0`), `2^32 → 0`
(weight `1`), `0 → 1` (weight `1`) with `num_nodes = 2^32 + 1`,
`alpha = 1/2` and `max_iter = 1`: every hypothesis of the claim holds (the
ids lie in `[0, num_nodes)`, the weights are non-negative, both sources have
the total weight `1`), `compare_edges` returns `0` for the edges across the
gap of `2^32` so that the sort leaves the order, the scan closes the run of
the first edge with `sum_weight = 0`, and the run with the division guarded
stops at that zero divisor. The code stores `0.0 / 0.0`, a NaN, as the
weight of the edge `0 → 0`, and the first update adds it into the score of
node `0`, where the claim requires non-negative scores. -/
theorem pagerank_gap_zero_divisor :
    gap_edges.length = 3 ∧
      (List.replicate 4294967297 (0 : ℚ)).length = 4294967297 ∧
      (∀ e ∈ gap_edges, 0 ≤ e.src ∧ e.src < (4294967297 : Nat) ∧
        0 ≤ e.dst ∧ e.dst < (4294967297 : Nat)) ∧
      (∀ e ∈ gap_edges, 0 ≤ e.weight) ∧
      (∀ e ∈ gap_edges, 0 < out_weight gap_edges e.src) ∧
      qsort gap_edges 3 compare_edges = gap_edges ∧
      normalize_edges_checked div_guarded (qsort gap_edges 3 compare_edges) 3 = none ∧
      pagerank_guarded gap_edges 3 (List.replicate 4294967297 0) 4294967297 (1/2) 1 0
        = none := by
  refine ⟨rfl, List.length_replicate _ _, by decide, ?_, ?_, qsort_gap_edges, ?_, ?_⟩
  · simp [gap_edges]
  · simp [gap_edges, out_weight, List.filter]
  · rw [qsort_gap_edges]
    exact gap_edges_zero_divisor
  · unfold pagerank_guarded qsort_checked
    rw [if_pos (by decide), qsort_gap_edges]
    simp only [gap_edges_zero_divisor]

end QuickAlgo
